import Mathlib

/-
Verification of the PatchMatch-style inpainting engine
(`performInpainting` in src/src/components/SmartPhotoEditor.tsx).

The function receives an RGBA image buffer and a mask buffer (flat arrays of
bytes, row-major, four channels per pixel; a pixel is masked iff the alpha
channel of its mask entry is non-zero).  The embedding below mirrors the
source statement by statement:

  * buffers are total functions `ℤ → ℕ`; each read that the source performs
    without an immediately preceding bounds check goes through `readB`, which
    returns `none` out of range (the error branch of the embedding);
  * the source fixes `patchSize = 9` and `iterations = 5`; the spec calls
    this pair the configuration, so both are fields of `Args` and the
    constants are the values the source uses;
  * `Math.random()` is modelled by an injected sequence `rng : ℕ → ℕ`
    together with a call counter `rc` in the state.  The two call sites are
    `Math.floor(Math.random() * validPixels.length)` (an arbitrary index in
    `[0, length)`, modelled as `rng rc % length`) and the random-search
    sample `Math.floor(best + (Math.random()*2 - 1) * radius)`.  The radius
    takes the exact binary-float values `M / 2^k` (`M = max width height`);
    for `u ∈ [0,1)` the floor ranges exactly over the integer interval
    `[best - ⌈M/2^k⌉, best + ⌈M/2^k⌉ - 1]`, modelled as
    `best - c + rng rc % (2*c)` with `c = ⌈M/2^k⌉`;
  * patch distances are averages of squared channel differences of bytes;
    the source computes them in IEEE doubles whose integer sums are exact at
    these magnitudes, so they are modelled in `ℚ`, with `none` standing for
    the `Infinity` returned when no cells are comparable;
  * the reconstruction accumulators are `Float32` sums of bytes (exact for
    the source's patch size) modelled as `ℕ` sums; the final store into the
    `Uint8ClampedArray` rounds half to even and clamps, modelled by `rdiv`.
-/

namespace Web

/-- Flat index of the first channel of pixel (x, y): `(y * width + x) * 4`. -/
def idx (w : ℕ) (x y : ℤ) : ℤ := (y * w + x) * 4

/-- Pixel index of (x, y) in a width-`w` grid: `y * w + x`. -/
def pidx (w : ℕ) (x y : ℤ) : ℤ := y * w + x

/-- Bounds test from the source: `x >= 0 && x < width && y >= 0 && y < height`. -/
def isValid (w h : ℕ) (x y : ℤ) : Bool :=
  decide (0 ≤ x) && decide (x < (w : ℤ)) && decide (0 ≤ y) && decide (y < (h : ℤ))

/-- Mask test from the source: out-of-bounds coordinates are unmasked, otherwise
the mask's alpha channel is compared with zero. -/
def isMasked (w h : ℕ) (mask : ℤ → ℕ) (x y : ℤ) : Bool :=
  if isValid w h x y then decide (0 < mask (idx w x y + 3)) else false

/-- Raster scan order: y from 0 to height-1, x from 0 to width-1. -/
def raster (w h : ℕ) : List (ℤ × ℤ) :=
  (List.range h).flatMap (fun y : ℕ =>
    (List.range w).map (fun x : ℕ => ((x : ℤ), (y : ℤ))))

/-- The list of unmasked source pixels, collected in raster order. -/
def validPixels (w h : ℕ) (mask : ℤ → ℕ) : List (ℤ × ℤ) :=
  (raster w h).filter (fun p => !isMasked w h mask p.1 p.2)

/-- Bounds-checked buffer read: the error branch of the embedding. -/
def readB (n : ℕ) (f : ℤ → ℕ) (i : ℤ) : Option ℕ :=
  if 0 ≤ i ∧ i < (n : ℤ) then some (f i) else none

/-- Pointwise buffer write. -/
def wr (f : ℤ → ℕ) (i : ℤ) (v : ℕ) : ℤ → ℕ := fun j => if j = i then v else f j

/-- Pointwise write into the nearest-neighbour field. -/
def wrP (f : ℤ → ℤ × ℤ) (i : ℤ) (v : ℤ × ℤ) : ℤ → ℤ × ℤ :=
  fun j => if j = i then v else f j

/-- Pointwise write into the distance grid. -/
def wrQ (f : ℤ → Option ℚ) (i : ℤ) (v : Option ℚ) : ℤ → Option ℚ :=
  fun j => if j = i then v else f j

/-- The strict `<` of the source on distances, where `none` is `Infinity`:
a finite value is below `Infinity`, `Infinity` is below nothing. -/
def qlt : Option ℚ → Option ℚ → Bool
  | some a, some b => decide (a < b)
  | some _, none => true
  | none, _ => false

/-- Inputs of one `performInpainting` call: dimensions, image and mask
buffers, and the configuration (the source fixes `patchSize = 9`,
`iterations = 5`). -/
structure Args where
  width : ℕ
  height : ℕ
  data : ℤ → ℕ
  mask : ℤ → ℕ
  patchSize : ℕ
  iterations : ℕ

/-- `halfPatch = Math.floor(patchSize / 2)`. -/
def halfPatch (A : Args) : ℕ := A.patchSize / 2

/-- Working state of the algorithm: image buffer, mask buffer, NNF
(`(source_x, source_y)` per pixel index), distance grid, and the number of
random values consumed so far. -/
structure St where
  data : ℤ → ℕ
  mask : ℤ → ℕ
  nnf : ℤ → ℤ × ℤ
  nnfDist : ℤ → Option ℚ
  rc : ℕ

/-- Initial state: buffers as given; the typed arrays `nnf` and `nnfDist`
are zero-initialised. -/
def st0 (A : Args) : St := ⟨A.data, A.mask, fun _ => (0, 0), fun _ => some 0, 0⟩

/-- Patch window offsets, dy outer, dx inner, each from `-halfPatch` to
`halfPatch`. -/
def offsets (hp : ℕ) : List (ℤ × ℤ) :=
  (List.range (2 * hp + 1)).flatMap (fun dy : ℕ =>
    (List.range (2 * hp + 1)).map (fun dx : ℕ => ((dx : ℤ) - hp, (dy : ℤ) - hp)))

/-- Squared RGB difference of the samples starting at flat indices i and j. -/
def sqDiff (d : ℤ → ℕ) (i j : ℤ) : ℚ :=
  ((d i : ℚ) - d j) * ((d i : ℚ) - d j)
    + ((d (i + 1) : ℚ) - d (j + 1)) * ((d (i + 1) : ℚ) - d (j + 1))
    + ((d (i + 2) : ℚ) - d (j + 2)) * ((d (i + 2) : ℚ) - d (j + 2))

/-- `patchDist` from the source: accumulate squared RGB differences over the
offsets whose cells are in bounds on both sides, then divide by the number of
compared cells; `none` (Infinity) if none were comparable. -/
def patchDist (w h hp : ℕ) (d : ℤ → ℕ) (ax ay bx bya : ℤ) : Option ℚ :=
  let r := (offsets hp).foldl
    (fun (acc : ℚ × ℕ) (o : ℤ × ℤ) =>
      if isValid w h (ax + o.1) (ay + o.2) && isValid w h (bx + o.1) (bya + o.2) then
        (acc.1 + sqDiff d (idx w (ax + o.1) (ay + o.2)) (idx w (bx + o.1) (bya + o.2)),
         acc.2 + 1)
      else acc) (0, 0)
  if r.2 = 0 then none else some (r.1 / (r.2 : ℚ))

/-- One step of the initialisation loop.  A masked pixel draws a random
source from `vp`, records it in the NNF, copies the source RGB into its own
slot with alpha forced opaque, and marks its distance Infinity (recomputed by
the next pass); an unmasked pixel gets the identity with distance 0.
The source reads `data[sIdx]` relying on the validity of the drawn source, so
those reads go through `readB`. -/
def initPix (A : Args) (vp : List (ℤ × ℤ)) (rng : ℕ → ℕ) (st : St) (p : ℤ × ℤ) :
    Option St :=
  let w := A.width
  let pI := pidx w p.1 p.2
  if isMasked w A.height st.mask p.1 p.2 then
    match vp.get? (rng st.rc % vp.length) with
    | none => none
    | some src =>
      let t := idx w p.1 p.2
      let s := idx w src.1 src.2
      match readB (4 * w * A.height) st.data s,
            readB (4 * w * A.height) st.data (s + 1),
            readB (4 * w * A.height) st.data (s + 2) with
      | some r, some g, some b =>
        some { data := wr (wr (wr (wr st.data t r) (t + 1) g) (t + 2) b) (t + 3) 255,
               mask := st.mask,
               nnf := wrP st.nnf pI (src.1, src.2),
               nnfDist := wrQ st.nnfDist pI none,
               rc := st.rc + 1 }
      | _, _, _ => none
  else
    some { st with nnf := wrP st.nnf pI p, nnfDist := wrQ st.nnfDist pI (some 0) }

/-- One step of the initial-distance pass: each masked pixel's stored
distance becomes the true patch distance to its assigned source. -/
def distPix (A : Args) (st : St) (p : ℤ × ℤ) : St :=
  let w := A.width
  if isMasked w A.height st.mask p.1 p.2 then
    let s := st.nnf (pidx w p.1 p.2)
    { st with nnfDist := (wrQ st.nnfDist (pidx w p.1 p.2)
        (patchDist w A.height (halfPatch A) st.data p.1 p.2 s.1 s.2)) }
  else st

/-- The initial-distance pass over the whole image. -/
def distPass (A : Args) (st : St) : St :=
  (raster A.width A.height).foldl (distPix A) st

/-- Candidate acceptance from the source: a proposal replaces the current
best only if it is in bounds, unmasked, and strictly closer. -/
def tryCand (A : Args) (st : St) (x y cx cy : ℤ) (b : (ℤ × ℤ) × Option ℚ) :
    (ℤ × ℤ) × Option ℚ :=
  if isValid A.width A.height cx cy && !isMasked A.width A.height st.mask cx cy then
    let d := patchDist A.width A.height (halfPatch A) st.data x y cx cy
    if qlt d b.2 then ((cx, cy), d) else b
  else b

/-- Propagation: translate each already-scanned neighbour's source by the
offset separating the two pixels. -/
def propPhase (A : Args) (st : St) (rev : Bool) (x y : ℤ)
    (b0 : (ℤ × ℤ) × Option ℚ) : (ℤ × ℤ) × Option ℚ :=
  let nbs : List (ℤ × ℤ) := if rev then [(1, 0), (0, 1)] else [(-1, 0), (0, -1)]
  nbs.foldl (fun b nb =>
    let nx := x + nb.1
    let ny := y + nb.2
    if isValid A.width A.height nx ny then
      let s := st.nnf (pidx A.width nx ny)
      tryCand A st x y (s.1 - nb.1) (s.2 - nb.2) b
    else b) b0

/-- The exponents of the radius-halving loop: `radius = M / 2^k` is sampled
while it exceeds 1, i.e. for each `k` with `2^k < M`. -/
def radii (A : Args) : List ℕ :=
  (List.range (max A.width A.height)).filter (fun k => 2 ^ k < max A.width A.height)

/-- Random search around the current best source, radius halving each step;
each sample consumes two random values. -/
def searchPhase (A : Args) (rng : ℕ → ℕ) (st : St) (x y : ℤ)
    (b0 : (ℤ × ℤ) × Option ℚ) (rc0 : ℕ) : ((ℤ × ℤ) × Option ℚ) × ℕ :=
  (radii A).foldl (fun (acc : ((ℤ × ℤ) × Option ℚ) × ℕ) k =>
    let M := max A.width A.height
    let c : ℕ := (M + 2 ^ k - 1) / 2 ^ k
    let rx := acc.1.1.1 - c + (rng acc.2 % (2 * c))
    let ry := acc.1.1.2 - c + (rng (acc.2 + 1) % (2 * c))
    (tryCand A st x y rx ry acc.1, acc.2 + 2)) (b0, rc0)

/-- One pixel visit of the iterative refiner: skip unmasked pixels; for a
masked pixel run propagation then random search from the stored best, commit
the winner into the NNF, and greedily overwrite the pixel's RGB with the
winner's RGB.  The final copy reads `data[idx best]` relying on the
invariant that the best source is in bounds, so it goes through `readB`. -/
def visitPix (A : Args) (rng : ℕ → ℕ) (st : St) (v : Bool × (ℤ × ℤ)) : Option St :=
  let w := A.width
  let x := v.2.1
  let y := v.2.2
  if isMasked w A.height st.mask x y then
    let pI := pidx w x y
    let b0 := (st.nnf pI, st.nnfDist pI)
    let b1 := propPhase A st v.1 x y b0
    let br := searchPhase A rng st x y b1 st.rc
    let t := idx w x y
    let s := idx w br.1.1.1 br.1.1.2
    match readB (4 * w * A.height) st.data s,
          readB (4 * w * A.height) st.data (s + 1),
          readB (4 * w * A.height) st.data (s + 2) with
    | some r, some g, some b =>
      some { data := wr (wr (wr st.data t r) (t + 1) g) (t + 2) b,
             mask := st.mask,
             nnf := wrP st.nnf pI br.1.1,
             nnfDist := wrQ st.nnfDist pI br.1.2,
             rc := br.2 }
    | _, _, _ => none
  else some st

/-- The full visit sequence of the refiner: `iterations` passes, raster
order on even passes, reversed raster order (both axes) on odd passes. -/
def visitSeq (w h iters : ℕ) : List (Bool × (ℤ × ℤ)) :=
  (List.range iters).flatMap (fun it =>
    (if it % 2 = 1 then (raster w h).reverse else raster w h).map
      (fun p => (decide (it % 2 = 1), p)))

/-- Folding the refiner over a list of pixel visits. -/
def refineFold (A : Args) (rng : ℕ → ℕ) (st : St) (l : List (Bool × (ℤ × ℤ))) :
    Option St :=
  l.foldlM (visitPix A rng) st

/-- Reconstruction accumulators: floating-point colour sums and weights. -/
structure Acc where
  fd : ℤ → ℕ
  wt : ℤ → ℕ

/-- All (pixel, offset) pairs visited by the reconstruction loops. -/
def reconItems (w h hp : ℕ) : List ((ℤ × ℤ) × (ℤ × ℤ)) :=
  (raster w h).flatMap (fun p => (offsets hp).map (fun o => (p, o)))

/-- One reconstruction contribution: the patch of pixel `p` (source `nnf p`)
adds the source colour at offset `o` into the accumulator of target
`p + o`, provided both cells are in bounds. -/
def reconStep (A : Args) (st : St) (acc : Acc) (item : (ℤ × ℤ) × (ℤ × ℤ)) : Acc :=
  let w := A.width
  let p := item.1
  let o := item.2
  let s := st.nnf (pidx w p.1 p.2)
  let tX := p.1 + o.1
  let tY := p.2 + o.2
  let sX := s.1 + o.1
  let sY := s.2 + o.2
  if isValid w A.height tX tY && isValid w A.height sX sY then
    let t := pidx w tX tY
    let si := idx w sX sY
    { fd := fun j =>
        if j = 4 * t then acc.fd j + st.data si
        else if j = 4 * t + 1 then acc.fd j + st.data (si + 1)
        else if j = 4 * t + 2 then acc.fd j + st.data (si + 2)
        else if j = 4 * t + 3 then acc.fd j + 255
        else acc.fd j,
      wt := fun j => if j = t then acc.wt j + 1 else acc.wt j }
  else acc

/-- The whole reconstruction accumulation. -/
def reconAcc (A : Args) (st : St) : Acc :=
  (reconItems A.width A.height (halfPatch A)).foldl (reconStep A st)
    ⟨fun _ => 0, fun _ => 0⟩

/-- The store `data[t] = finalData[t] / weights[i]` into a byte of a
`Uint8ClampedArray`: round half to even, clamp at 255. -/
def rdiv (s n : ℕ) : ℕ :=
  let q := s / n
  let r := s % n
  min 255 (if 2 * r < n then q else if n < 2 * r then q + 1
           else if q % 2 = 0 then q else q + 1)

/-- One step of the normalisation loop: a pixel with positive weight gets
the averaged RGB, alpha forced to 255, and its mask alpha cleared. -/
def normPix (acc : Acc) (st : St) (i : ℕ) : St :=
  if 0 < acc.wt (i : ℤ) then
    let t : ℤ := 4 * (i : ℤ)
    { st with
      data := wr (wr (wr (wr st.data t (rdiv (acc.fd t) (acc.wt (i : ℤ))))
                 (t + 1) (rdiv (acc.fd (t + 1)) (acc.wt (i : ℤ))))
                 (t + 2) (rdiv (acc.fd (t + 2)) (acc.wt (i : ℤ))))
                 (t + 3) 255,
      mask := wr st.mask (t + 3) 0 }
  else st

/-- Reconstruction plus normalisation. -/
def finalize (A : Args) (st : St) : St :=
  let acc := reconAcc A st
  (List.range (A.width * A.height)).foldl (normPix acc) st

/-- State after the initialisation loop. -/
def afterInit (A : Args) (rng : ℕ → ℕ) : Option St :=
  (raster A.width A.height).foldlM
    (initPix A (validPixels A.width A.height A.mask) rng) (st0 A)

/-- State after initialisation, the initial-distance pass, and all refiner
passes. -/
def afterRefine (A : Args) (rng : ℕ → ℕ) : Option St :=
  (afterInit A rng).bind (fun s1 =>
    refineFold A rng (distPass A s1) (visitSeq A.width A.height A.iterations))

/-- The whole `performInpainting` call: if the valid-pixel list is empty the
buffers are returned untouched, otherwise initialisation, refinement and
reconstruction run in sequence. -/
def inpaint (A : Args) (rng : ℕ → ℕ) : Option St :=
  if validPixels A.width A.height A.mask = [] then some (st0 A)
  else (afterRefine A rng).map (finalize A)

/-- Facts established by the initialisation loop for one pixel: a masked
pixel's NNF entry is some member of the valid list, an unmasked pixel's is
the identity with distance 0. -/
def postInit (A : Args) (vp : List (ℤ × ℤ)) (st2 : St) (p : ℤ × ℤ) : Prop :=
  (isMasked A.width A.height A.mask p.1 p.2 = true →
    ∃ src ∈ vp, st2.nnf (pidx A.width p.1 p.2) = src) ∧
  (isMasked A.width A.height A.mask p.1 p.2 = false →
    st2.nnf (pidx A.width p.1 p.2) = p ∧
    st2.nnfDist (pidx A.width p.1 p.2) = some 0)

/-- Relation between the pre-visit best and any later best of the same
visit: either unchanged, or an in-bounds unmasked candidate strictly below
the original distance. -/
def goodBest (A : Args) (st : St) (b0 b : (ℤ × ℤ) × Option ℚ) : Prop :=
  b = b0 ∨ (isValid A.width A.height b.1.1 b.1.2 = true ∧
            isMasked A.width A.height st.mask b.1.1 b.1.2 = false ∧
            qlt b.2 b0.2 = true)

/-- The running invariant of the refiner: the mask buffer is the input mask;
every unmasked pixel keeps the identity NNF entry, zero distance and its
original colour; every masked pixel's NNF entry is in bounds and unmasked in
the original mask. -/
def InvR (A : Args) (st : St) : Prop :=
  st.mask = A.mask ∧
  (∀ p ∈ raster A.width A.height,
    (isMasked A.width A.height A.mask p.1 p.2 = false →
      st.nnf (pidx A.width p.1 p.2) = p ∧
      st.nnfDist (pidx A.width p.1 p.2) = some 0 ∧
      (∀ c : ℕ, c < 4 →
        st.data (idx A.width p.1 p.2 + c) = A.data (idx A.width p.1 p.2 + c))) ∧
    (isMasked A.width A.height A.mask p.1 p.2 = true →
      isValid A.width A.height (st.nnf (pidx A.width p.1 p.2)).1
        (st.nnf (pidx A.width p.1 p.2)).2 = true ∧
      isMasked A.width A.height A.mask (st.nnf (pidx A.width p.1 p.2)).1
        (st.nnf (pidx A.width p.1 p.2)).2 = false))

/-- The source-never-from-hole invariant: every masked pixel's NNF entry is
an in-bounds coordinate that is unmasked in the original mask. -/
def SrcInv (A : Args) (st : St) : Prop :=
  ∀ p ∈ raster A.width A.height,
    isMasked A.width A.height A.mask p.1 p.2 = true →
    isValid A.width A.height (st.nnf (pidx A.width p.1 p.2)).1
      (st.nnf (pidx A.width p.1 p.2)).2 = true ∧
    isMasked A.width A.height A.mask (st.nnf (pidx A.width p.1 p.2)).1
      (st.nnf (pidx A.width p.1 p.2)).2 = false

/-- The identity invariant: every unmasked pixel's NNF entry is itself, its
stored distance is zero, and its working-buffer bytes are the input bytes. -/
def UnmInv (A : Args) (st : St) : Prop :=
  ∀ p ∈ raster A.width A.height,
    isMasked A.width A.height A.mask p.1 p.2 = false →
    st.nnf (pidx A.width p.1 p.2) = p ∧
    st.nnfDist (pidx A.width p.1 p.2) = some 0 ∧
    (∀ c : ℕ, c < 4 →
      st.data (idx A.width p.1 p.2 + c) = A.data (idx A.width p.1 p.2 + c))

/-- The comparable cells of a patch pair: the window offsets whose cells are
in bounds on both sides simultaneously. -/
def comparableCells (w h hp : ℕ) (ax ay bx bya : ℤ) : List (ℤ × ℤ) :=
  (offsets hp).filter (fun o =>
    isValid w h (ax + o.1) (ay + o.2) && isValid w h (bx + o.1) (bya + o.2))

/-- `patchDist` as the spec words it: the sum of the squared RGB differences
of the working-buffer samples over the comparable cells, divided by the
number of comparable cells; infinite when there are none. -/
def patchDistSpec (w h hp : ℕ) (d : ℤ → ℕ) (ax ay bx bya : ℤ) : Option ℚ :=
  let cells := comparableCells w h hp ax ay bx bya
  if cells.length = 0 then none
  else some ((cells.map (fun o =>
    sqDiff d (idx w (ax + o.1) (ay + o.2)) (idx w (bx + o.1) (bya + o.2)))).sum
    / (cells.length : ℚ))

/-- A 3-by-1 test input: pixel (0,0) is black, pixel (1,0) has RGB (3,3,3),
pixel (2,0) is black; all image alphas 255; only pixel (2,0) is masked;
patch size 3, five iterations. -/
def ex1 : Args :=
  ⟨3, 1,
   fun i => if i = 3 ∨ i = 7 ∨ i = 11 then 255
     else if i = 4 ∨ i = 5 ∨ i = 6 then 3 else 0,
   fun i => if i = 11 then 1 else 0, 3, 5⟩

/-- The constant-1 random sequence. -/
def rngOne : ℕ → ℕ := fun _ => 1

/-- The constant-0 random sequence. -/
def rngZero : ℕ → ℕ := fun _ => 0

/-- A fully masked 1-by-1 input. -/
def ex3 : Args := ⟨1, 1, fun i => if i = 0 then 10 else 0, fun _ => 1, 9, 5⟩

/-- A 1-by-1 input with image bytes (10, 20, 30, 7) and an all-zero mask. -/
def ex4 : Args :=
  ⟨1, 1, fun i => if i = 0 then 10 else if i = 1 then 20 else if i = 2 then 30
    else if i = 3 then 7 else 0, fun _ => 0, 9, 5⟩

/-- The 5-by-5 solid red (255,0,0,255) scenario with the single pixel (2,2)
masked, patch size 3 and one iteration. -/
def ex8 : Args :=
  ⟨5, 5, fun i => if i % 4 = 0 ∨ i % 4 = 3 then 255 else 0,
   fun i => if i = 51 then 1 else 0, 3, 1⟩

/-- A 1-by-1 unmasked input whose mask buffer has 5 in its red channel. -/
def ex10 : Args :=
  ⟨1, 1, fun i => if i = 3 then 255 else 9, fun i => if i = 0 then 5 else 0, 9, 5⟩

/-- The contribution of one reconstruction item to the colour accumulator
at flat index `j` (mirrors one `reconStep`). -/
def fdContrib (A : Args) (st : St) (j : ℤ) (item : (ℤ × ℤ) × (ℤ × ℤ)) : ℕ :=
  let w := A.width
  let s := st.nnf (pidx w item.1.1 item.1.2)
  let tX := item.1.1 + item.2.1
  let tY := item.1.2 + item.2.2
  let sX := s.1 + item.2.1
  let sY := s.2 + item.2.2
  if isValid w A.height tX tY && isValid w A.height sX sY then
    let t := pidx w tX tY
    let si := idx w sX sY
    if j = 4 * t then st.data si
    else if j = 4 * t + 1 then st.data (si + 1)
    else if j = 4 * t + 2 then st.data (si + 2)
    else if j = 4 * t + 3 then 255
    else 0
  else 0

/-- The contribution of one reconstruction item to the weight counter at
pixel index `j`. -/
def wtContrib (A : Args) (st : St) (j : ℤ) (item : (ℤ × ℤ) × (ℤ × ℤ)) : ℕ :=
  let w := A.width
  let s := st.nnf (pidx w item.1.1 item.1.2)
  let tX := item.1.1 + item.2.1
  let tY := item.1.2 + item.2.2
  let sX := s.1 + item.2.1
  let sY := s.2 + item.2.2
  if isValid w A.height tX tY && isValid w A.height sX sY then
    if j = pidx w tX tY then 1 else 0
  else 0

/-- The channel pattern of the solid colour (255, 0, 0, 255). -/
def chan (c : ℕ) : ℕ := if c = 0 ∨ c = 3 then 255 else 0

/-- The input image is solid red and opaque at every valid pixel. -/
def ConstImg (A : Args) : Prop :=
  ∀ x y : ℤ, isValid A.width A.height x y = true → ∀ c : ℕ, c < 4 →
    A.data (idx A.width x y + c) = chan c

/-- The working buffer is solid red and opaque at every valid pixel. -/
def DataPat (A : Args) (st : St) : Prop :=
  ∀ x y : ℤ, isValid A.width A.height x y = true → ∀ c : ℕ, c < 4 →
    st.data (idx A.width x y + c) = chan c

theorem isValid_iff {w h : ℕ} {x y : ℤ} :
    isValid w h x y = true ↔ 0 ≤ x ∧ x < (w : ℤ) ∧ 0 ≤ y ∧ y < (h : ℤ) := by
  simp only [isValid, Bool.and_eq_true, decide_eq_true_eq]
  tauto

theorem mem_raster {w h : ℕ} {p : ℤ × ℤ} :
    p ∈ raster w h ↔ isValid w h p.1 p.2 = true := by
  rcases p with ⟨x, y⟩
  rw [raster, List.mem_flatMap]
  constructor
  · rintro ⟨y0, hy0, hmem⟩
    rw [List.mem_range] at hy0
    rw [List.mem_map] at hmem
    obtain ⟨x0, hx0, hh⟩ := hmem
    rw [List.mem_range] at hx0
    injection hh with h1 h2
    subst h1; subst h2
    rw [isValid_iff]
    omega
  · intro hv
    rw [isValid_iff] at hv
    obtain ⟨hx0, hx1, hy0, hy1⟩ := hv
    refine ⟨y.toNat, ?_, ?_⟩
    · rw [List.mem_range]; omega
    · rw [List.mem_map]
      refine ⟨x.toNat, ?_, ?_⟩
      · rw [List.mem_range]; omega
      · simp [Int.toNat_of_nonneg hx0, Int.toNat_of_nonneg hy0]

theorem mem_validPixels {w h : ℕ} {mask : ℤ → ℕ} {p : ℤ × ℤ} :
    p ∈ validPixels w h mask ↔ p ∈ raster w h ∧ isMasked w h mask p.1 p.2 = false := by
  simp [validPixels, List.mem_filter]

theorem isMasked_valid {w h : ℕ} {mask : ℤ → ℕ} {x y : ℤ}
    (hm : isMasked w h mask x y = true) : isValid w h x y = true := by
  by_contra hv
  simp [isMasked, hv] at hm

theorem pidx_inj {w h : ℕ} {x1 y1 x2 y2 : ℤ}
    (h1 : isValid w h x1 y1 = true) (h2 : isValid w h x2 y2 = true)
    (he : pidx w x1 y1 = pidx w x2 y2) : x1 = x2 ∧ y1 = y2 := by
  rw [isValid_iff] at h1 h2
  obtain ⟨ha1, hb1, hc1, hd1⟩ := h1
  obtain ⟨ha2, hb2, hc2, hd2⟩ := h2
  unfold pidx at he
  have hw : (0 : ℤ) < w := by omega
  have hx : x1 = x2 := by
    have e1 : (x1 + y1 * w) % w = x1 := by
      rw [Int.add_mul_emod_self]
      exact Int.emod_eq_of_lt ha1 hb1
    have e2 : (x2 + y2 * w) % w = x2 := by
      rw [Int.add_mul_emod_self]
      exact Int.emod_eq_of_lt ha2 hb2
    have : x1 + y1 * w = x2 + y2 * w := by linarith [he]
    rw [← e1, ← e2, this]
  refine ⟨hx, ?_⟩
  have : y1 * w = y2 * w := by omega
  exact mul_right_cancel₀ (by omega) this

theorem pidx_bounds {w h : ℕ} {x y : ℤ} (hv : isValid w h x y = true) :
    0 ≤ pidx w x y ∧ pidx w x y < ((w * h : ℕ) : ℤ) := by
  rw [isValid_iff] at hv
  obtain ⟨hx0, hx1, hy0, hy1⟩ := hv
  unfold pidx
  have h1 : 0 ≤ y * w := mul_nonneg hy0 (by positivity)
  have h2 : (y + 1) * w ≤ h * w := by
    apply mul_le_mul_of_nonneg_right (by omega) (by positivity)
  push_cast
  constructor
  · omega
  · nlinarith

theorem idx_eq {w : ℕ} (x y : ℤ) : idx w x y = 4 * pidx w x y := by
  unfold idx pidx; ring

theorem idx_bounds {w h : ℕ} {x y : ℤ} (hv : isValid w h x y = true) :
    0 ≤ idx w x y ∧ idx w x y + 3 < ((4 * w * h : ℕ) : ℤ) := by
  obtain ⟨h1, h2⟩ := pidx_bounds hv
  rw [idx_eq]
  push_cast
  push_cast at h2
  constructor <;> nlinarith

theorem foldlM_some_ind {σ α : Type} (f : σ → α → Option σ) (P : σ → Prop)
    (l : List α) (hstep : ∀ s a, a ∈ l → P s → ∃ t, f s a = some t ∧ P t) :
    ∀ s, P s → ∃ t, List.foldlM f s l = some t ∧ P t := by
  induction l with
  | nil => intro s hs; exact ⟨s, rfl, hs⟩
  | cons a l ih =>
    intro s hs
    obtain ⟨t, hft, hPt⟩ := hstep s a (List.mem_cons_self a l) hs
    obtain ⟨u, hu, hPu⟩ :=
      ih (fun s2 b hb => hstep s2 b (List.mem_cons_of_mem a hb)) t hPt
    refine ⟨u, ?_, hPu⟩
    rw [List.foldlM_cons, hft]
    simpa using hu

theorem initPix_masked {A : Args} {vp : List (ℤ × ℤ)} (rng : ℕ → ℕ) {st : St}
    {p : ℤ × ℤ} (hm : isMasked A.width A.height st.mask p.1 p.2 = true)
    (hvpne : vp ≠ []) (hvp : ∀ q ∈ vp, q ∈ raster A.width A.height) :
    ∃ src ∈ vp,
      initPix A vp rng st p = some
        { data := wr (wr (wr (wr st.data (idx A.width p.1 p.2)
                     (st.data (idx A.width src.1 src.2)))
                   (idx A.width p.1 p.2 + 1) (st.data (idx A.width src.1 src.2 + 1)))
                   (idx A.width p.1 p.2 + 2) (st.data (idx A.width src.1 src.2 + 2)))
                   (idx A.width p.1 p.2 + 3) 255,
          mask := st.mask,
          nnf := wrP st.nnf (pidx A.width p.1 p.2) (src.1, src.2),
          nnfDist := wrQ st.nnfDist (pidx A.width p.1 p.2) none,
          rc := st.rc + 1 } := by
  have hlen : 0 < vp.length := List.length_pos.mpr hvpne
  have hk : rng st.rc % vp.length < vp.length := Nat.mod_lt _ hlen
  have hget : vp.get? (rng st.rc % vp.length) = some (vp.get ⟨_, hk⟩) :=
    List.get?_eq_get hk
  set src := vp.get ⟨rng st.rc % vp.length, hk⟩ with hsrcdef
  have hsrcmem : src ∈ vp := List.get_mem vp _ hk
  have hsrcval : isValid A.width A.height src.1 src.2 = true :=
    mem_raster.mp (hvp src hsrcmem)
  obtain ⟨hi0, hi3⟩ := idx_bounds (w := A.width) (h := A.height) hsrcval
  refine ⟨src, hsrcmem, ?_⟩
  have hr0 : readB (4 * A.width * A.height) st.data (idx A.width src.1 src.2) =
      some (st.data (idx A.width src.1 src.2)) := by
    unfold readB
    rw [if_pos ⟨hi0, by omega⟩]
  have hr1 : readB (4 * A.width * A.height) st.data (idx A.width src.1 src.2 + 1) =
      some (st.data (idx A.width src.1 src.2 + 1)) := by
    unfold readB
    rw [if_pos ⟨by omega, by omega⟩]
  have hr2 : readB (4 * A.width * A.height) st.data (idx A.width src.1 src.2 + 2) =
      some (st.data (idx A.width src.1 src.2 + 2)) := by
    unfold readB
    rw [if_pos ⟨by omega, by omega⟩]
  simp only [initPix, hm, if_true, hget, hr0, hr1, hr2]

theorem initPix_unmasked {A : Args} (vp : List (ℤ × ℤ)) (rng : ℕ → ℕ) {st : St}
    {p : ℤ × ℤ} (hm : isMasked A.width A.height st.mask p.1 p.2 = false) :
    initPix A vp rng st p = some
      { st with nnf := wrP st.nnf (pidx A.width p.1 p.2) p,
                nnfDist := wrQ st.nnfDist (pidx A.width p.1 p.2) (some 0) } := by
  simp only [initPix, hm, Bool.false_eq_true, if_false]

theorem initFold (A : Args) (vp : List (ℤ × ℤ)) (rng : ℕ → ℕ)
    (hvpne : vp ≠ []) (hvp : ∀ q ∈ vp, q ∈ raster A.width A.height) :
    ∀ (l : List (ℤ × ℤ)), (∀ p ∈ l, p ∈ raster A.width A.height) →
    ∀ (st : St), st.mask = A.mask →
    ∃ st2, List.foldlM (initPix A vp rng) st l = some st2 ∧
      st2.mask = A.mask ∧
      (∀ p ∈ l, postInit A vp st2 p) ∧
      (∀ j, (∀ p ∈ l, pidx A.width p.1 p.2 ≠ j) →
        st2.nnf j = st.nnf j ∧ st2.nnfDist j = st.nnfDist j) ∧
      (∀ j, (∀ p ∈ l, isMasked A.width A.height A.mask p.1 p.2 = true →
          j < idx A.width p.1 p.2 ∨ idx A.width p.1 p.2 + 3 < j) →
        st2.data j = st.data j) := by
  intro l
  induction l with
  | nil =>
    intro _ st hmask
    exact ⟨st, rfl, hmask, by simp, fun j _ => ⟨rfl, rfl⟩, fun j _ => rfl⟩
  | cons p l ih =>
    intro hl st hmask
    have hpr : p ∈ raster A.width A.height := hl p (List.mem_cons_self p l)
    have hpv : isValid A.width A.height p.1 p.2 = true := mem_raster.mp hpr
    have hlt : ∀ q ∈ l, q ∈ raster A.width A.height :=
      fun q hq => hl q (List.mem_cons_of_mem p hq)
    by_cases hm : isMasked A.width A.height A.mask p.1 p.2 = true
    · have hm' : isMasked A.width A.height st.mask p.1 p.2 = true := by
        rw [hmask]; exact hm
      obtain ⟨src, hsrcmem, hstep⟩ := initPix_masked rng hm' hvpne hvp
      set st1 : St :=
        { data := wr (wr (wr (wr st.data (idx A.width p.1 p.2)
                     (st.data (idx A.width src.1 src.2)))
                   (idx A.width p.1 p.2 + 1) (st.data (idx A.width src.1 src.2 + 1)))
                   (idx A.width p.1 p.2 + 2) (st.data (idx A.width src.1 src.2 + 2)))
                   (idx A.width p.1 p.2 + 3) 255,
          mask := st.mask,
          nnf := wrP st.nnf (pidx A.width p.1 p.2) (src.1, src.2),
          nnfDist := wrQ st.nnfDist (pidx A.width p.1 p.2) none,
          rc := st.rc + 1 } with hst1
      obtain ⟨st2, hfold, hmask2, hpost, hfrN, hfrD⟩ := ih hlt st1 hmask
      refine ⟨st2, ?_, hmask2, ?_, ?_, ?_⟩
      · rw [List.foldlM_cons, hstep]
        simpa using hfold
      · intro q hq
        rcases List.mem_cons.mp hq with hq | hq
        · subst hq
          by_cases hql : q ∈ l
          · exact hpost q hql
          · constructor
            · intro _
              refine ⟨src, hsrcmem, ?_⟩
              have hfr := (hfrN (pidx A.width q.1 q.2) ?_).1
              · rw [hfr, hst1]
                simp [wrP]
              · intro r hr hpr2
                have hrv : isValid A.width A.height r.1 r.2 := mem_raster.mp (hlt r hr)
                obtain ⟨he1, he2⟩ := pidx_inj hrv hpv hpr2
                exact hql (by rwa [show r = q from Prod.ext he1 he2] at hr)
            · intro hcontra
              rw [hm] at hcontra
              exact absurd hcontra (by simp)
        · exact hpost q hq
      · intro j hj
        have hjl : ∀ q ∈ l, pidx A.width q.1 q.2 ≠ j :=
          fun q hq => hj q (List.mem_cons_of_mem p hq)
        have hjp : pidx A.width p.1 p.2 ≠ j := hj p (List.mem_cons_self p l)
        obtain ⟨h1, h2⟩ := hfrN j hjl
        rw [h1, h2, hst1]
        constructor
        · simp [wrP, Ne.symm hjp]
        · simp [wrQ, Ne.symm hjp]
      · intro j hj
        have hjl : ∀ q ∈ l, isMasked A.width A.height A.mask q.1 q.2 = true →
            j < idx A.width q.1 q.2 ∨ idx A.width q.1 q.2 + 3 < j :=
          fun q hq => hj q (List.mem_cons_of_mem p hq)
        have hjp := hj p (List.mem_cons_self p l) hm
        rw [hfrD j hjl, hst1]
        simp only [wr]
        rw [if_neg (by omega), if_neg (by omega), if_neg (by omega), if_neg (by omega)]
    · have hmf : isMasked A.width A.height A.mask p.1 p.2 = false :=
        Bool.not_eq_true _ ▸ eq_false_of_ne_true hm
      have hm' : isMasked A.width A.height st.mask p.1 p.2 = false := by
        rw [hmask]; exact hmf
      have hstep := initPix_unmasked vp rng hm'
      set st1 : St :=
        { st with nnf := wrP st.nnf (pidx A.width p.1 p.2) p,
                  nnfDist := wrQ st.nnfDist (pidx A.width p.1 p.2) (some 0) } with hst1
      obtain ⟨st2, hfold, hmask2, hpost, hfrN, hfrD⟩ := ih hlt st1 hmask
      refine ⟨st2, ?_, hmask2, ?_, ?_, ?_⟩
      · rw [List.foldlM_cons, hstep]
        simpa using hfold
      · intro q hq
        rcases List.mem_cons.mp hq with hq | hq
        · subst hq
          by_cases hql : q ∈ l
          · exact hpost q hql
          · constructor
            · intro hcontra
              rw [hmf] at hcontra
              exact absurd hcontra (by simp)
            · intro _
              have hfr := hfrN (pidx A.width q.1 q.2) ?_
              · rw [hfr.1, hfr.2, hst1]
                constructor
                · simp [wrP]
                · simp [wrQ]
              · intro r hr hpr2
                have hrv : isValid A.width A.height r.1 r.2 := mem_raster.mp (hlt r hr)
                obtain ⟨he1, he2⟩ := pidx_inj hrv hpv hpr2
                exact hql (by rwa [show r = q from Prod.ext he1 he2] at hr)
        · exact hpost q hq
      · intro j hj
        have hjl : ∀ q ∈ l, pidx A.width q.1 q.2 ≠ j :=
          fun q hq => hj q (List.mem_cons_of_mem p hq)
        have hjp : pidx A.width p.1 p.2 ≠ j := hj p (List.mem_cons_self p l)
        obtain ⟨h1, h2⟩ := hfrN j hjl
        rw [h1, h2, hst1]
        constructor
        · simp [wrP, Ne.symm hjp]
        · simp [wrQ, Ne.symm hjp]
      · intro j hj
        have hjl : ∀ q ∈ l, isMasked A.width A.height A.mask q.1 q.2 = true →
            j < idx A.width q.1 q.2 ∨ idx A.width q.1 q.2 + 3 < j :=
          fun q hq => hj q (List.mem_cons_of_mem p hq)
        rw [hfrD j hjl, hst1]

theorem distFold (A : Args) (l : List (ℤ × ℤ)) :
    ∀ st : St, (l.foldl (distPix A) st).mask = st.mask ∧
      (l.foldl (distPix A) st).data = st.data ∧
      (l.foldl (distPix A) st).nnf = st.nnf ∧
      ∀ j, (∀ q ∈ l, isMasked A.width A.height st.mask q.1 q.2 = true →
          pidx A.width q.1 q.2 ≠ j) →
        (l.foldl (distPix A) st).nnfDist j = st.nnfDist j := by
  induction l with
  | nil => exact fun st => ⟨rfl, rfl, rfl, fun j _ => rfl⟩
  | cons p l ih =>
    intro st
    have hstep : (distPix A st p).mask = st.mask ∧ (distPix A st p).data = st.data ∧
        (distPix A st p).nnf = st.nnf := by
      unfold distPix
      by_cases hm : isMasked A.width A.height st.mask p.1 p.2 = true
      · simp [hm]
      · simp [eq_false_of_ne_true hm]
    obtain ⟨hm1, hd1, hn1⟩ := hstep
    obtain ⟨hm2, hd2, hn2, hfr2⟩ := ih (distPix A st p)
    rw [List.foldl_cons]
    refine ⟨by rw [hm2, hm1], by rw [hd2, hd1], by rw [hn2, hn1], ?_⟩
    intro j hj
    have hj' : ∀ q ∈ l, isMasked A.width A.height (distPix A st p).mask q.1 q.2 = true →
        pidx A.width q.1 q.2 ≠ j := by
      rw [hm1]
      exact fun q hq => hj q (List.mem_cons_of_mem p hq)
    rw [hfr2 j hj']
    unfold distPix
    by_cases hm : isMasked A.width A.height st.mask p.1 p.2 = true
    · have hjp := hj p (List.mem_cons_self p l) hm
      simp only [hm, if_true, wrQ]
      rw [if_neg (Ne.symm hjp)]
    · simp [eq_false_of_ne_true hm]

theorem qlt_trans {a b c : Option ℚ} (h1 : qlt a b = true) (h2 : qlt b c = true) :
    qlt a c = true := by
  rcases a with _ | a <;> rcases b with _ | b <;> rcases c with _ | c <;>
    simp [qlt] at h1 h2 ⊢
  exact lt_trans h1 h2

theorem tryCand_cases (A : Args) (st : St) (x y cx cy : ℤ)
    (b : (ℤ × ℤ) × Option ℚ) :
    tryCand A st x y cx cy b = b ∨
    (isValid A.width A.height cx cy = true ∧
     isMasked A.width A.height st.mask cx cy = false ∧
     qlt (patchDist A.width A.height (halfPatch A) st.data x y cx cy) b.2 = true ∧
     tryCand A st x y cx cy b =
       ((cx, cy), patchDist A.width A.height (halfPatch A) st.data x y cx cy)) := by
  unfold tryCand
  by_cases h1 :
      (isValid A.width A.height cx cy && !isMasked A.width A.height st.mask cx cy) = true
  · rw [if_pos h1]
    obtain ⟨hv, hnm⟩ := Bool.and_eq_true_iff.mp h1
    have hmf : isMasked A.width A.height st.mask cx cy = false := by
      simpa using hnm
    by_cases h2 :
        qlt (patchDist A.width A.height (halfPatch A) st.data x y cx cy) b.2 = true
    · right
      exact ⟨hv, hmf, h2, by rw [if_pos h2]⟩
    · left
      rw [if_neg h2]
  · left
    rw [if_neg h1]

theorem tryCand_good {A : Args} {st : St} {x y cx cy : ℤ}
    {b0 b : (ℤ × ℤ) × Option ℚ} (hb : goodBest A st b0 b) :
    goodBest A st b0 (tryCand A st x y cx cy b) := by
  rcases tryCand_cases A st x y cx cy b with h | ⟨hv, hmf, hq, heq⟩
  · rw [h]; exact hb
  · rw [heq]
    right
    refine ⟨hv, hmf, ?_⟩
    rcases hb with rfl | ⟨_, _, hq0⟩
    · exact hq
    · exact qlt_trans hq hq0

theorem foldl_pres {α β : Type} (f : β → α → β) (P : β → Prop)
    (hstep : ∀ b a, P b → P (f b a)) : ∀ (l : List α) (b : β), P b → P (l.foldl f b) := by
  intro l
  induction l with
  | nil => exact fun b hb => hb
  | cons a l ih => exact fun b hb => ih (f b a) (hstep b a hb)

theorem propPhase_good {A : Args} {st : St} {rev : Bool} {x y : ℤ}
    {b0 : (ℤ × ℤ) × Option ℚ} : goodBest A st b0 (propPhase A st rev x y b0) := by
  unfold propPhase
  apply foldl_pres _ (goodBest A st b0)
  · intro b nb hb
    by_cases hv : isValid A.width A.height (x + nb.1) (y + nb.2) = true
    · simp only [hv, if_true]
      exact tryCand_good hb
    · simp only [eq_false_of_ne_true hv, Bool.false_eq_true, if_false]
      exact hb
  · exact Or.inl rfl

theorem searchPhase_good {A : Args} {rng : ℕ → ℕ} {st : St} {x y : ℤ}
    {b0 b1 : (ℤ × ℤ) × Option ℚ} {rc0 : ℕ} (hb1 : goodBest A st b0 b1) :
    goodBest A st b0 (searchPhase A rng st x y b1 rc0).1 := by
  unfold searchPhase
  have := foldl_pres (β := ((ℤ × ℤ) × Option ℚ) × ℕ)
    (fun acc k =>
      let M := max A.width A.height
      let c : ℕ := (M + 2 ^ k - 1) / 2 ^ k
      let rx := acc.1.1.1 - c + (rng acc.2 % (2 * c))
      let ry := acc.1.1.2 - c + (rng (acc.2 + 1) % (2 * c))
      (tryCand A st x y rx ry acc.1, acc.2 + 2))
    (fun acc => goodBest A st b0 acc.1)
    (fun acc k hacc => tryCand_good hacc) (radii A) (b1, rc0) hb1
  exact this

theorem visitPix_unmasked {A : Args} (rng : ℕ → ℕ) {st : St} (rev : Bool) {x y : ℤ}
    (hm : isMasked A.width A.height st.mask x y = false) :
    visitPix A rng st (rev, (x, y)) = some st := by
  simp only [visitPix, hm, Bool.false_eq_true, if_false]

theorem visitPix_masked {A : Args} (rng : ℕ → ℕ) {st : St} (rev : Bool) {x y : ℤ}
    (hm : isMasked A.width A.height st.mask x y = true)
    (hb0 : isValid A.width A.height (st.nnf (pidx A.width x y)).1
      (st.nnf (pidx A.width x y)).2 = true) :
    ∃ best : (ℤ × ℤ) × Option ℚ, ∃ rc' : ℕ,
      isValid A.width A.height best.1.1 best.1.2 = true ∧
      (best = (st.nnf (pidx A.width x y), st.nnfDist (pidx A.width x y)) ∨
       (isMasked A.width A.height st.mask best.1.1 best.1.2 = false ∧
        qlt best.2 (st.nnfDist (pidx A.width x y)) = true)) ∧
      visitPix A rng st (rev, (x, y)) = some
        { data := wr (wr (wr st.data (idx A.width x y)
                     (st.data (idx A.width best.1.1 best.1.2)))
                   (idx A.width x y + 1) (st.data (idx A.width best.1.1 best.1.2 + 1)))
                   (idx A.width x y + 2) (st.data (idx A.width best.1.1 best.1.2 + 2)),
          mask := st.mask,
          nnf := wrP st.nnf (pidx A.width x y) best.1,
          nnfDist := wrQ st.nnfDist (pidx A.width x y) best.2,
          rc := rc' } := by
  have hg : goodBest A st (st.nnf (pidx A.width x y), st.nnfDist (pidx A.width x y))
      (searchPhase A rng st x y
        (propPhase A st rev x y
          (st.nnf (pidx A.width x y), st.nnfDist (pidx A.width x y))) st.rc).1 :=
    searchPhase_good propPhase_good
  set br := searchPhase A rng st x y
      (propPhase A st rev x y
        (st.nnf (pidx A.width x y), st.nnfDist (pidx A.width x y))) st.rc with hbr
  have hval : isValid A.width A.height br.1.1.1 br.1.1.2 = true := by
    rcases hg with heq | ⟨hv, _, _⟩
    · rw [heq]
      exact hb0
    · exact hv
  obtain ⟨hi0, hi3⟩ := idx_bounds (w := A.width) (h := A.height) hval
  have hr0 : readB (4 * A.width * A.height) st.data (idx A.width br.1.1.1 br.1.1.2) =
      some (st.data (idx A.width br.1.1.1 br.1.1.2)) := by
    unfold readB
    rw [if_pos ⟨hi0, by omega⟩]
  have hr1 : readB (4 * A.width * A.height) st.data (idx A.width br.1.1.1 br.1.1.2 + 1) =
      some (st.data (idx A.width br.1.1.1 br.1.1.2 + 1)) := by
    unfold readB
    rw [if_pos ⟨by omega, by omega⟩]
  have hr2 : readB (4 * A.width * A.height) st.data (idx A.width br.1.1.1 br.1.1.2 + 2) =
      some (st.data (idx A.width br.1.1.1 br.1.1.2 + 2)) := by
    unfold readB
    rw [if_pos ⟨by omega, by omega⟩]
  refine ⟨br.1, br.2, hval, ?_, ?_⟩
  · rcases hg with heq | ⟨_, hmf, hq⟩
    · exact Or.inl heq
    · exact Or.inr ⟨hmf, hq⟩
  · simp only [visitPix, hm, if_true, ← hbr, hr0, hr1, hr2]

theorem visitPix_inv (A : Args) (rng : ℕ → ℕ) (st : St) (v : Bool × (ℤ × ℤ))
    (hinv : InvR A st) : ∃ st', visitPix A rng st v = some st' ∧ InvR A st' := by
  obtain ⟨hmask, hpix⟩ := hinv
  rcases v with ⟨rev, x, y⟩
  by_cases hm : isMasked A.width A.height st.mask x y = true
  · have hmA : isMasked A.width A.height A.mask x y = true := by rwa [hmask] at hm
    have hxyv : isValid A.width A.height x y = true := isMasked_valid hmA
    have hxyr : (x, y) ∈ raster A.width A.height := mem_raster.mpr hxyv
    have hb0 : isValid A.width A.height (st.nnf (pidx A.width x y)).1
        (st.nnf (pidx A.width x y)).2 = true :=
      ((hpix (x, y) hxyr).2 hmA).1
    obtain ⟨best, rc', hbv, hbd, hstep⟩ := visitPix_masked rng rev hm hb0
    refine ⟨_, hstep, hmask, ?_⟩
    intro q hqr
    have hqv : isValid A.width A.height q.1 q.2 = true := mem_raster.mp hqr
    dsimp only
    by_cases hpq : pidx A.width q.1 q.2 = pidx A.width x y
    · have hqxy : q = (x, y) := by
        obtain ⟨he1, he2⟩ := pidx_inj hqv hxyv hpq
        exact Prod.ext he1 he2
      constructor
      · intro hqm
        rw [hqxy, hmA] at hqm
        exact absurd hqm (by simp)
      · intro _
        rw [hpq]
        have hnq : wrP st.nnf (pidx A.width x y) best.1 (pidx A.width x y) = best.1 := by
          simp [wrP]
        rw [hnq]
        refine ⟨hbv, ?_⟩
        rcases hbd with heq | ⟨hbm, _⟩
        · have hbeq : best.1 = st.nnf (pidx A.width x y) := by rw [heq]
          rw [hbeq]
          exact ((hpix (x, y) hxyr).2 hmA).2
        · rwa [hmask] at hbm
    · have hnq : wrP st.nnf (pidx A.width x y) best.1 (pidx A.width q.1 q.2)
          = st.nnf (pidx A.width q.1 q.2) := by
        simp [wrP, hpq]
      have hdq : wrQ st.nnfDist (pidx A.width x y) best.2 (pidx A.width q.1 q.2)
          = st.nnfDist (pidx A.width q.1 q.2) := by
        simp [wrQ, hpq]
      constructor
      · intro hqm
        obtain ⟨h1, h2, h3⟩ := (hpix q hqr).1 hqm
        refine ⟨by rw [hnq]; exact h1, by rw [hdq]; exact h2, ?_⟩
        intro c hc
        have hq0 := pidx_bounds hqv
        have hx0 := pidx_bounds hxyv
        have hblk : ∀ c' : ℤ, 0 ≤ c' → c' < 4 →
            idx A.width q.1 q.2 + (c : ℤ) ≠ idx A.width x y + c' := by
          intro c' hc0 hc4
          rw [idx_eq, idx_eq]
          intro hcontra
          apply hpq
          omega
        simp only [wr]
        rw [if_neg (hblk 2 (by omega) (by omega)),
            if_neg (hblk 1 (by omega) (by omega)),
            if_neg (by simpa using hblk 0 (by omega) (by omega))]
        exact h3 c hc
      · intro hqm
        obtain ⟨h1, h2⟩ := (hpix q hqr).2 hqm
        rw [hnq]
        exact ⟨h1, h2⟩
  · have hmf : isMasked A.width A.height st.mask x y = false := eq_false_of_ne_true hm
    exact ⟨st, visitPix_unmasked rng rev hmf, hmask, hpix⟩

theorem blocks_disjoint {w h : ℕ} {x1 y1 x2 y2 : ℤ}
    (_h1 : isValid w h x1 y1 = true) (_h2 : isValid w h x2 y2 = true)
    (hne : pidx w x1 y1 ≠ pidx w x2 y2) {c : ℤ} (hc0 : 0 ≤ c) (hc4 : c < 4) :
    idx w x1 y1 + c < idx w x2 y2 ∨ idx w x2 y2 + 3 < idx w x1 y1 + c := by
  rw [idx_eq, idx_eq]
  omega

theorem distPass_inv (A : Args) (st : St) (h : InvR A st) :
    InvR A (distPass A st) ∧ (distPass A st).data = st.data ∧
    (distPass A st).nnf = st.nnf ∧ (distPass A st).mask = st.mask := by
  obtain ⟨hmask, hpix⟩ := h
  have hdp : distPass A st = (raster A.width A.height).foldl (distPix A) st := rfl
  obtain ⟨hm2, hd2, hn2, hfr⟩ := distFold A (raster A.width A.height) st
  rw [← hdp] at hm2 hd2 hn2 hfr
  refine ⟨⟨by rw [hm2, hmask], ?_⟩, hd2, hn2, hm2⟩
  intro p hpr
  have hpv : isValid A.width A.height p.1 p.2 = true := mem_raster.mp hpr
  constructor
  · intro hpm
    obtain ⟨h1, h2, h3⟩ := (hpix p hpr).1 hpm
    refine ⟨by rw [hn2]; exact h1, ?_, ?_⟩
    · rw [hfr (pidx A.width p.1 p.2) ?_]
      · exact h2
      · intro q hqr hqm hcontra
        have hqmA : isMasked A.width A.height A.mask q.1 q.2 = true := by
          rwa [hmask] at hqm
        have hqv : isValid A.width A.height q.1 q.2 = true := mem_raster.mp hqr
        obtain ⟨he1, he2⟩ := pidx_inj hqv hpv hcontra
        rw [show q = p from Prod.ext he1 he2] at hqmA
        rw [hqmA] at hpm
        exact absurd hpm (by simp)
    · intro c hc
      rw [hd2]
      exact h3 c hc
  · intro hpm
    obtain ⟨h1, h2⟩ := (hpix p hpr).2 hpm
    rw [hn2]
    exact ⟨h1, h2⟩

theorem afterInit_inv (A : Args) (rng : ℕ → ℕ)
    (hne : validPixels A.width A.height A.mask ≠ []) :
    ∃ st1, afterInit A rng = some st1 ∧
      (∀ p ∈ raster A.width A.height,
        postInit A (validPixels A.width A.height A.mask) st1 p) ∧
      InvR A st1 := by
  have hvp : ∀ q ∈ validPixels A.width A.height A.mask, q ∈ raster A.width A.height :=
    fun q hq => (mem_validPixels.mp hq).1
  obtain ⟨st1, hfold, hmask1, hpost, hfrN, hfrD⟩ :=
    initFold A (validPixels A.width A.height A.mask) rng hne hvp
      (raster A.width A.height) (fun p hp => hp) (st0 A) rfl
  refine ⟨st1, hfold, hpost, hmask1, ?_⟩
  intro p hpr
  have hpv : isValid A.width A.height p.1 p.2 = true := mem_raster.mp hpr
  constructor
  · intro hpm
    obtain ⟨h1, h2⟩ := (hpost p hpr).2 hpm
    refine ⟨h1, h2, ?_⟩
    intro c hc
    have hcond : ∀ q ∈ raster A.width A.height,
        isMasked A.width A.height A.mask q.1 q.2 = true →
        idx A.width p.1 p.2 + (c : ℤ) < idx A.width q.1 q.2 ∨
        idx A.width q.1 q.2 + 3 < idx A.width p.1 p.2 + (c : ℤ) := by
      intro q hqr hqm
      have hqv : isValid A.width A.height q.1 q.2 = true := mem_raster.mp hqr
      have hpqne : pidx A.width p.1 p.2 ≠ pidx A.width q.1 q.2 := by
        intro hcontra
        obtain ⟨he1, he2⟩ := pidx_inj hpv hqv hcontra
        rw [show p = q from Prod.ext he1 he2, hqm] at hpm
        exact absurd hpm (by simp)
      exact blocks_disjoint hpv hqv hpqne (c := (c : ℤ)) (by omega) (by omega)
    rw [hfrD (idx A.width p.1 p.2 + c) hcond]
    rfl
  · intro hpm
    obtain ⟨src, hsrcmem, hsrc⟩ := (hpost p hpr).1 hpm
    obtain ⟨hsrcr, hsrcnm⟩ := mem_validPixels.mp hsrcmem
    have hsv : isValid A.width A.height src.1 src.2 = true := mem_raster.mp hsrcr
    rw [hsrc]
    exact ⟨hsv, hsrcnm⟩

theorem afterRefine_inv (A : Args) (rng : ℕ → ℕ)
    (hne : validPixels A.width A.height A.mask ≠ []) :
    ∃ st3, afterRefine A rng = some st3 ∧ InvR A st3 := by
  obtain ⟨st1, hfold, hpost, hinv1⟩ := afterInit_inv A rng hne
  obtain ⟨hinv2, _, _, _⟩ := distPass_inv A st1 hinv1
  obtain ⟨st3, hfold3, hinv3⟩ :=
    foldlM_some_ind (visitPix A rng) (InvR A)
      (visitSeq A.width A.height A.iterations)
      (fun s v _ hs => visitPix_inv A rng s v hs) (distPass A st1) hinv2
  refine ⟨st3, ?_, hinv3⟩
  unfold afterRefine
  rw [hfold]
  simpa [refineFold] using hfold3

theorem normFold_nnf (acc : Acc) (l : List ℕ) : ∀ st : St,
    (l.foldl (normPix acc) st).nnf = st.nnf ∧
    (l.foldl (normPix acc) st).nnfDist = st.nnfDist ∧
    (l.foldl (normPix acc) st).rc = st.rc := by
  induction l with
  | nil => exact fun st => ⟨rfl, rfl, rfl⟩
  | cons i l ih =>
    intro st
    have hstep : (normPix acc st i).nnf = st.nnf ∧
        (normPix acc st i).nnfDist = st.nnfDist ∧ (normPix acc st i).rc = st.rc := by
      unfold normPix
      by_cases hw : 0 < acc.wt (i : ℤ)
      · simp [hw]
      · simp [hw]
    obtain ⟨h1, h2, h3⟩ := hstep
    obtain ⟨g1, g2, g3⟩ := ih (normPix acc st i)
    rw [List.foldl_cons]
    exact ⟨by rw [g1, h1], by rw [g2, h2], by rw [g3, h3]⟩

theorem finalize_nnf (A : Args) (st : St) : (finalize A st).nnf = st.nnf :=
  (normFold_nnf (reconAcc A st) (List.range (A.width * A.height)) st).1

theorem patchFold_key (w h : ℕ) (d : ℤ → ℕ) (ax ay bx bya : ℤ) :
    ∀ (l : List (ℤ × ℤ)) (s : ℚ) (n : ℕ),
      l.foldl (fun (acc : ℚ × ℕ) (o : ℤ × ℤ) =>
        if isValid w h (ax + o.1) (ay + o.2) && isValid w h (bx + o.1) (bya + o.2) then
          (acc.1 + sqDiff d (idx w (ax + o.1) (ay + o.2)) (idx w (bx + o.1) (bya + o.2)),
           acc.2 + 1)
        else acc) (s, n) =
      (s + ((l.filter (fun o =>
          isValid w h (ax + o.1) (ay + o.2) && isValid w h (bx + o.1) (bya + o.2))).map
        (fun o =>
          sqDiff d (idx w (ax + o.1) (ay + o.2)) (idx w (bx + o.1) (bya + o.2)))).sum,
       n + (l.filter (fun o =>
          isValid w h (ax + o.1) (ay + o.2) && isValid w h (bx + o.1) (bya + o.2))).length) := by
  intro l
  induction l with
  | nil => intro s n; simp
  | cons o l ih =>
    intro s n
    by_cases hg : (isValid w h (ax + o.1) (ay + o.2) &&
        isValid w h (bx + o.1) (bya + o.2)) = true
    · rw [List.foldl_cons]
      simp only [hg, if_true]
      rw [ih]
      simp only [List.filter_cons, hg, if_true, List.map_cons, List.sum_cons,
        List.length_cons, Prod.mk.injEq]
      constructor
      · ring
      · omega
    · rw [List.foldl_cons]
      simp only [hg, Bool.false_eq_true, if_false]
      rw [ih]
      simp only [List.filter_cons, hg, Bool.false_eq_true, if_false]

/-- Claim C5: `patchDist(ax, ay, bx, by)` equals the sum over all offsets
`(dx, dy)` with `-halfPatch ≤ dx, dy ≤ halfPatch` whose cells lie inside the
image bounds on both sides simultaneously, of the squared RGB difference
between the working-buffer samples at those two cells, divided by the number
of such comparable cells; and when the number of comparable cells is zero,
`patchDist` returns infinity (`none`). -/
theorem C5_theorem (w h hp : ℕ) (d : ℤ → ℕ) (ax ay bx bya : ℤ) :
    patchDist w h hp d ax ay bx bya = patchDistSpec w h hp d ax ay bx bya := by
  unfold patchDist patchDistSpec comparableCells
  rw [patchFold_key]
  simp only [zero_add]

/-- Claim C9: for every input image, mask, configuration and random
sequence every buffer access of the algorithm is in bounds: the embedded
function's error branch is unreachable, `inpaint` always returns a state
and never raises. -/
theorem C9_theorem (A : Args) (rng : ℕ → ℕ) : (inpaint A rng).isSome = true := by
  unfold inpaint
  by_cases hne : validPixels A.width A.height A.mask = []
  · rw [if_pos hne]
    rfl
  · rw [if_neg hne]
    obtain ⟨st3, hst3, _⟩ := afterRefine_inv A rng hne
    rw [hst3]
    rfl

/-- Claim C2: with a non-empty valid-pixel list, at every stage after NNF
initialisation — after the initialisation loop, after every number of pixel
visits within the refiner passes, and at reconstruction (whose normalisation
never changes the NNF) — every masked pixel's NNF source coordinate is an
in-bounds coordinate that is unmasked in the original mask. -/
theorem C2_theorem (A : Args) (rng : ℕ → ℕ)
    (hne : validPixels A.width A.height A.mask ≠ []) :
    ∃ st1, afterInit A rng = some st1 ∧ SrcInv A st1 ∧
      (∀ l1 l2, visitSeq A.width A.height A.iterations = l1 ++ l2 →
        ∃ st', refineFold A rng (distPass A st1) l1 = some st' ∧ SrcInv A st') ∧
      (∀ st : St, (finalize A st).nnf = st.nnf) := by
  obtain ⟨st1, hfold, hpost, hinv1⟩ := afterInit_inv A rng hne
  obtain ⟨hinv2, _, _, _⟩ := distPass_inv A st1 hinv1
  refine ⟨st1, hfold, ?_, ?_, ?_⟩
  · intro p hpr hpm
    exact (hinv1.2 p hpr).2 hpm
  · intro l1 l2 heq
    obtain ⟨st', hst', hinv'⟩ :=
      foldlM_some_ind (visitPix A rng) (InvR A) l1
        (fun s v _ hs => visitPix_inv A rng s v hs) (distPass A st1) hinv2
    refine ⟨st', hst', ?_⟩
    intro p hpr hpm
    exact (hinv'.2 p hpr).2 hpm
  · exact fun st => finalize_nnf A st

theorem C2_witness :
    ∃ st1, afterInit ex1 rngOne = some st1 ∧ SrcInv ex1 st1 ∧
      (∀ l1 l2, visitSeq ex1.width ex1.height ex1.iterations = l1 ++ l2 →
        ∃ st', refineFold ex1 rngOne (distPass ex1 st1) l1 = some st' ∧
          SrcInv ex1 st') ∧
      (∀ st : St, (finalize ex1 st).nnf = st.nnf) :=
  C2_theorem ex1 rngOne (by decide)

/-- Claim C7: with a non-empty valid-pixel list, after initialisation and
after every number of refiner pixel visits, every unmasked pixel's NNF
entry is the identity with stored distance 0 and its working-buffer bytes
are the input bytes: the refiner never modifies the NNF entry, the stored
distance, or the colour of an unmasked pixel. -/
theorem C7_theorem (A : Args) (rng : ℕ → ℕ)
    (hne : validPixels A.width A.height A.mask ≠ []) :
    ∃ st1, afterInit A rng = some st1 ∧ UnmInv A st1 ∧
      (∀ l1 l2, visitSeq A.width A.height A.iterations = l1 ++ l2 →
        ∃ st', refineFold A rng (distPass A st1) l1 = some st' ∧ UnmInv A st') := by
  obtain ⟨st1, hfold, hpost, hinv1⟩ := afterInit_inv A rng hne
  obtain ⟨hinv2, _, _, _⟩ := distPass_inv A st1 hinv1
  refine ⟨st1, hfold, ?_, ?_⟩
  · intro p hpr hpm
    exact (hinv1.2 p hpr).1 hpm
  · intro l1 l2 heq
    obtain ⟨st', hst', hinv'⟩ :=
      foldlM_some_ind (visitPix A rng) (InvR A) l1
        (fun s v _ hs => visitPix_inv A rng s v hs) (distPass A st1) hinv2
    refine ⟨st', hst', ?_⟩
    intro p hpr hpm
    exact (hinv'.2 p hpr).1 hpm

theorem C7_witness :
    ∃ st1, afterInit ex1 rngOne = some st1 ∧ UnmInv ex1 st1 ∧
      (∀ l1 l2, visitSeq ex1.width ex1.height ex1.iterations = l1 ++ l2 →
        ∃ st', refineFold ex1 rngOne (distPass ex1 st1) l1 = some st' ∧
          UnmInv ex1 st') :=
  C7_theorem ex1 rngOne (by decide)

/-- Claim C3: when every pixel of the image is masked, the valid-pixel list
is empty and `inpaint` returns at once: the image buffer and the mask
buffer are byte-for-byte the inputs, and no error is raised. -/
theorem C3_theorem (A : Args) (rng : ℕ → ℕ)
    (hall : ∀ p ∈ raster A.width A.height,
      isMasked A.width A.height A.mask p.1 p.2 = true) :
    inpaint A rng = some (st0 A) ∧ (st0 A).data = A.data ∧ (st0 A).mask = A.mask := by
  have hvp : validPixels A.width A.height A.mask = [] := by
    unfold validPixels
    rw [List.filter_eq_nil_iff]
    intro p hp
    simp [hall p hp]
  unfold inpaint
  rw [if_pos hvp]
  exact ⟨rfl, rfl, rfl⟩

theorem C3_witness :
    inpaint ex3 rngZero = some (st0 ex3) ∧ (st0 ex3).data = ex3.data ∧
    (st0 ex3).mask = ex3.mask :=
  C3_theorem ex3 rngZero (by decide)

/-- Claim C6: during the refiner a candidate source — from propagation or
random search — replaces the current best only if it is in bounds, unmasked
in the mask (unchanged from the original during refinement), and its patch
distance to the pixel is strictly below the current best distance; and a
visited masked pixel either keeps its previous NNF entry and stored
distance unchanged or adopts an in-bounds unmasked source of strictly lower
distance, the visit never erroring. -/
theorem C6_theorem :
    (∀ (A : Args) (st : St) (x y cx cy : ℤ) (b : (ℤ × ℤ) × Option ℚ),
      tryCand A st x y cx cy b = b ∨
      (isValid A.width A.height cx cy = true ∧
       isMasked A.width A.height st.mask cx cy = false ∧
       qlt (patchDist A.width A.height (halfPatch A) st.data x y cx cy) b.2 = true ∧
       tryCand A st x y cx cy b =
         ((cx, cy), patchDist A.width A.height (halfPatch A) st.data x y cx cy))) ∧
    (∀ (A : Args) (rng : ℕ → ℕ) (st : St) (rev : Bool) (x y : ℤ),
      isMasked A.width A.height st.mask x y = true →
      isValid A.width A.height (st.nnf (pidx A.width x y)).1
        (st.nnf (pidx A.width x y)).2 = true →
      ∃ st', visitPix A rng st (rev, (x, y)) = some st' ∧
        ((st'.nnf (pidx A.width x y) = st.nnf (pidx A.width x y) ∧
          st'.nnfDist (pidx A.width x y) = st.nnfDist (pidx A.width x y)) ∨
         (isValid A.width A.height (st'.nnf (pidx A.width x y)).1
            (st'.nnf (pidx A.width x y)).2 = true ∧
          isMasked A.width A.height st.mask (st'.nnf (pidx A.width x y)).1
            (st'.nnf (pidx A.width x y)).2 = false ∧
          qlt (st'.nnfDist (pidx A.width x y)) (st.nnfDist (pidx A.width x y)) = true))) := by
  constructor
  · exact tryCand_cases
  · intro A rng st rev x y hm hb0
    obtain ⟨best, rc', hbv, hbd, hstep⟩ :=
      visitPix_masked rng rev hm hb0
    refine ⟨_, hstep, ?_⟩
    dsimp only
    have hnn : wrP st.nnf (pidx A.width x y) best.1 (pidx A.width x y) = best.1 := by
      simp [wrP]
    have hdd : wrQ st.nnfDist (pidx A.width x y) best.2 (pidx A.width x y) = best.2 := by
      simp [wrQ]
    rw [hnn, hdd]
    rcases hbd with heq | ⟨hbm, hq⟩
    · left
      rw [heq]
      exact ⟨rfl, rfl⟩
    · right
      exact ⟨hbv, hbm, hq⟩

theorem C6_witness :
    isMasked ex1.width ex1.height (st0 ex1).mask 2 0 = true ∧
    (∃ st', visitPix ex1 rngOne (st0 ex1) (false, (2, 0)) = some st' ∧
      ((st'.nnf (pidx ex1.width 2 0) = (st0 ex1).nnf (pidx ex1.width 2 0) ∧
        st'.nnfDist (pidx ex1.width 2 0) = (st0 ex1).nnfDist (pidx ex1.width 2 0)) ∨
       (isValid ex1.width ex1.height (st'.nnf (pidx ex1.width 2 0)).1
          (st'.nnf (pidx ex1.width 2 0)).2 = true ∧
        isMasked ex1.width ex1.height (st0 ex1).mask (st'.nnf (pidx ex1.width 2 0)).1
          (st'.nnf (pidx ex1.width 2 0)).2 = false ∧
        qlt (st'.nnfDist (pidx ex1.width 2 0))
          ((st0 ex1).nnfDist (pidx ex1.width 2 0)) = true))) :=
  ⟨by decide, C6_theorem.2 ex1 rngOne (st0 ex1) false 2 0 (by decide) (by decide)⟩

theorem reconStep_fd (A : Args) (st : St) (acc : Acc) (item : (ℤ × ℤ) × (ℤ × ℤ))
    (j : ℤ) : (reconStep A st acc item).fd j = acc.fd j + fdContrib A st j item := by
  unfold reconStep fdContrib
  by_cases hg : (isValid A.width A.height (item.1.1 + item.2.1) (item.1.2 + item.2.2) &&
      isValid A.width A.height ((st.nnf (pidx A.width item.1.1 item.1.2)).1 + item.2.1)
        ((st.nnf (pidx A.width item.1.1 item.1.2)).2 + item.2.2)) = true
  · simp only [hg, if_true]
    split_ifs <;> simp
  · simp only [hg, Bool.false_eq_true, if_false]
    simp

theorem reconStep_wt (A : Args) (st : St) (acc : Acc) (item : (ℤ × ℤ) × (ℤ × ℤ))
    (j : ℤ) : (reconStep A st acc item).wt j = acc.wt j + wtContrib A st j item := by
  unfold reconStep wtContrib
  by_cases hg : (isValid A.width A.height (item.1.1 + item.2.1) (item.1.2 + item.2.2) &&
      isValid A.width A.height ((st.nnf (pidx A.width item.1.1 item.1.2)).1 + item.2.1)
        ((st.nnf (pidx A.width item.1.1 item.1.2)).2 + item.2.2)) = true
  · simp only [hg, if_true]
    split_ifs <;> simp
  · simp only [hg, Bool.false_eq_true, if_false]
    simp

theorem reconFold_fd (A : Args) (st : St) (j : ℤ) :
    ∀ (l : List ((ℤ × ℤ) × (ℤ × ℤ))) (acc : Acc),
      (l.foldl (reconStep A st) acc).fd j =
        acc.fd j + (l.map (fdContrib A st j)).sum := by
  intro l
  induction l with
  | nil => intro acc; simp
  | cons it l ih =>
    intro acc
    rw [List.foldl_cons, ih, reconStep_fd]
    simp [add_assoc]

theorem reconFold_wt (A : Args) (st : St) (j : ℤ) :
    ∀ (l : List ((ℤ × ℤ) × (ℤ × ℤ))) (acc : Acc),
      (l.foldl (reconStep A st) acc).wt j =
        acc.wt j + (l.map (wtContrib A st j)).sum := by
  intro l
  induction l with
  | nil => intro acc; simp
  | cons it l ih =>
    intro acc
    rw [List.foldl_cons, ih, reconStep_wt]
    simp [add_assoc]

theorem reconAcc_fd (A : Args) (st : St) (j : ℤ) :
    (reconAcc A st).fd j =
      ((reconItems A.width A.height (halfPatch A)).map (fdContrib A st j)).sum := by
  unfold reconAcc
  rw [reconFold_fd]
  simp

theorem reconAcc_wt (A : Args) (st : St) (j : ℤ) :
    (reconAcc A st).wt j =
      ((reconItems A.width A.height (halfPatch A)).map (wtContrib A st j)).sum := by
  unfold reconAcc
  rw [reconFold_wt]
  simp

theorem mem_offsets {hp : ℕ} {o : ℤ × ℤ} :
    o ∈ offsets hp ↔ -(hp : ℤ) ≤ o.1 ∧ o.1 ≤ hp ∧ -(hp : ℤ) ≤ o.2 ∧ o.2 ≤ hp := by
  rcases o with ⟨dx, dy⟩
  rw [offsets, List.mem_flatMap]
  constructor
  · rintro ⟨dy0, hdy0, hmem⟩
    rw [List.mem_range] at hdy0
    rw [List.mem_map] at hmem
    obtain ⟨dx0, hdx0, hh⟩ := hmem
    rw [List.mem_range] at hdx0
    injection hh with h1 h2
    subst h1; subst h2
    constructor
    · omega
    · refine ⟨by omega, by omega, by omega⟩
  · rintro ⟨h1, h2, h3, h4⟩
    refine ⟨(dy + hp).toNat, ?_, ?_⟩
    · rw [List.mem_range]; omega
    · rw [List.mem_map]
      refine ⟨(dx + hp).toNat, ?_, ?_⟩
      · rw [List.mem_range]; omega
      · have e1 : ((dx + (hp : ℤ)).toNat : ℤ) = dx + hp := Int.toNat_of_nonneg (by omega)
        have e2 : ((dy + (hp : ℤ)).toNat : ℤ) = dy + hp := Int.toNat_of_nonneg (by omega)
        rw [Prod.mk.injEq]
        constructor <;> omega

theorem mem_reconItems {w h hp : ℕ} {it : (ℤ × ℤ) × (ℤ × ℤ)} :
    it ∈ reconItems w h hp ↔ it.1 ∈ raster w h ∧ it.2 ∈ offsets hp := by
  rcases it with ⟨p, o⟩
  rw [reconItems, List.mem_flatMap]
  constructor
  · rintro ⟨p0, hp0, hmem⟩
    rw [List.mem_map] at hmem
    obtain ⟨o0, ho0, hh⟩ := hmem
    injection hh with h1 h2
    subst h1; subst h2
    exact ⟨hp0, ho0⟩
  · rintro ⟨h1, h2⟩
    refine ⟨p, h1, ?_⟩
    rw [List.mem_map]
    exact ⟨o, h2, rfl⟩

theorem sum_map_mul {α : Type} (v : ℕ) (f g : α → ℕ) :
    ∀ l : List α, (∀ x ∈ l, f x = v * g x) → (l.map f).sum = v * (l.map g).sum := by
  intro l
  induction l with
  | nil => intro _; simp
  | cons a l ih =>
    intro hl
    rw [List.map_cons, List.sum_cons, List.map_cons, List.sum_cons,
      hl a (List.mem_cons_self a l), ih (fun x hx => hl x (List.mem_cons_of_mem a hx)),
      Nat.mul_add]

theorem recon_const_at (A : Args) (st : St) (x y : ℤ) (c : ℕ) (hc : c < 3) (v : ℕ)
    (hval : isValid A.width A.height x y = true)
    (hv : ∀ q ∈ raster A.width A.height, ∀ o ∈ offsets (halfPatch A),
      q.1 + o.1 = x → q.2 + o.2 = y →
      isValid A.width A.height ((st.nnf (pidx A.width q.1 q.2)).1 + o.1)
        ((st.nnf (pidx A.width q.1 q.2)).2 + o.2) = true →
      st.data (idx A.width ((st.nnf (pidx A.width q.1 q.2)).1 + o.1)
        ((st.nnf (pidx A.width q.1 q.2)).2 + o.2) + c) = v) :
    (reconAcc A st).fd (idx A.width x y + c) =
      v * (reconAcc A st).wt (pidx A.width x y) := by
  rw [reconAcc_fd, reconAcc_wt]
  apply sum_map_mul
  intro it hit
  obtain ⟨hpr, hor⟩ := mem_reconItems.mp hit
  have hqv : isValid A.width A.height it.1.1 it.1.2 = true := mem_raster.mp hpr
  unfold fdContrib wtContrib
  dsimp only
  by_cases hg : (isValid A.width A.height (it.1.1 + it.2.1) (it.1.2 + it.2.2) &&
      isValid A.width A.height ((st.nnf (pidx A.width it.1.1 it.1.2)).1 + it.2.1)
        ((st.nnf (pidx A.width it.1.1 it.1.2)).2 + it.2.2)) = true
  · simp only [hg, if_true]
    obtain ⟨htv, hsv⟩ := Bool.and_eq_true_iff.mp hg
    by_cases ht : pidx A.width (it.1.1 + it.2.1) (it.1.2 + it.2.2) = pidx A.width x y
    · obtain ⟨he1, he2⟩ := pidx_inj htv hval ht
      have hread := hv it.1 hpr it.2 hor he1 he2 hsv
      have hgoal : idx A.width x y + (c : ℤ) =
          4 * pidx A.width (it.1.1 + it.2.1) (it.1.2 + it.2.2) + c := by
        rw [idx_eq, ht]
      rw [if_pos (Eq.symm ht)]
      interval_cases c
      · rw [if_pos (by omega : idx A.width x y + ((0 : ℕ) : ℤ) =
          4 * pidx A.width (it.1.1 + it.2.1) (it.1.2 + it.2.2))]
        rw [mul_one]
        simpa using hread
      · rw [if_neg (by omega), if_pos (by omega : idx A.width x y + ((1 : ℕ) : ℤ) =
          4 * pidx A.width (it.1.1 + it.2.1) (it.1.2 + it.2.2) + 1)]
        rw [mul_one]
        simpa using hread
      · rw [if_neg (by omega), if_neg (by omega),
          if_pos (by omega : idx A.width x y + ((2 : ℕ) : ℤ) =
            4 * pidx A.width (it.1.1 + it.2.1) (it.1.2 + it.2.2) + 2)]
        rw [mul_one]
        simpa using hread
    · have hne : ∀ c2 : ℤ, 0 ≤ c2 → c2 < 4 →
          idx A.width x y + (c : ℤ) ≠
          4 * pidx A.width (it.1.1 + it.2.1) (it.1.2 + it.2.2) + c2 := by
        intro c2 h0 h4 hcontra
        apply ht
        rw [idx_eq] at hcontra
        omega
      rw [if_neg (Ne.symm ht)]
      rw [if_neg (by simpa using hne 0 (by omega) (by omega)),
          if_neg (hne 1 (by omega) (by omega)),
          if_neg (hne 2 (by omega) (by omega)),
          if_neg (hne 3 (by omega) (by omega))]
      simp
  · simp only [hg, Bool.false_eq_true, if_false]
    simp

theorem recon_wt_pos (A : Args) (st : St) (x y : ℤ)
    (hval : isValid A.width A.height x y = true)
    (hnnf : isValid A.width A.height (st.nnf (pidx A.width x y)).1
      (st.nnf (pidx A.width x y)).2 = true) :
    0 < (reconAcc A st).wt (pidx A.width x y) := by
  rw [reconAcc_wt]
  have hmem : ((x, y), ((0 : ℤ), (0 : ℤ))) ∈
      reconItems A.width A.height (halfPatch A) := by
    apply mem_reconItems.mpr
    refine ⟨mem_raster.mpr hval, ?_⟩
    apply mem_offsets.mpr
    refine ⟨?_, ?_, ?_, ?_⟩ <;> simp
  have hcontrib : wtContrib A st (pidx A.width x y) ((x, y), ((0 : ℤ), (0 : ℤ))) = 1 := by
    unfold wtContrib
    dsimp only
    rw [add_zero, add_zero, add_zero, add_zero]
    rw [if_pos (by rw [hval, hnnf]; rfl), if_pos rfl]
  have hmm : (1 : ℕ) ∈ (reconItems A.width A.height (halfPatch A)).map
      (wtContrib A st (pidx A.width x y)) := by
    rw [List.mem_map]
    exact ⟨_, hmem, hcontrib⟩
  have := List.single_le_sum (l := (reconItems A.width A.height (halfPatch A)).map
      (wtContrib A st (pidx A.width x y))) (fun x _ => Nat.zero_le x) 1 hmm
  omega

theorem normFold_data_frame (acc : Acc) (l : List ℕ) (j : ℤ)
    (hj : ∀ i ∈ l, ¬(0 < acc.wt (i : ℤ) ∧ 4 * (i : ℤ) ≤ j ∧ j ≤ 4 * (i : ℤ) + 3)) :
    ∀ st : St, (l.foldl (normPix acc) st).data j = st.data j := by
  induction l with
  | nil => exact fun st => rfl
  | cons i l ih =>
    intro st
    rw [List.foldl_cons]
    rw [ih (fun i2 h2 => hj i2 (List.mem_cons_of_mem i h2))]
    unfold normPix
    by_cases hw : 0 < acc.wt (i : ℤ)
    · have hout := hj i (List.mem_cons_self i l)
      simp only [hw, if_true]
      simp only [wr]
      rw [if_neg (by omega), if_neg (by omega), if_neg (by omega), if_neg (by omega)]
    · simp only [hw, if_false]

theorem normFold_mask_frame (acc : Acc) (l : List ℕ) (j : ℤ)
    (hj : ∀ i ∈ l, ¬(0 < acc.wt (i : ℤ) ∧ j = 4 * (i : ℤ) + 3)) :
    ∀ st : St, (l.foldl (normPix acc) st).mask j = st.mask j := by
  induction l with
  | nil => exact fun st => rfl
  | cons i l ih =>
    intro st
    rw [List.foldl_cons]
    rw [ih (fun i2 h2 => hj i2 (List.mem_cons_of_mem i h2))]
    unfold normPix
    by_cases hw : 0 < acc.wt (i : ℤ)
    · have hout := hj i (List.mem_cons_self i l)
      simp only [hw, if_true]
      simp only [wr]
      rw [if_neg (by omega)]
    · simp only [hw, if_false]

theorem normFold_data_hit (acc : Acc) (l : List ℕ) (i0 : ℕ) (hmem : i0 ∈ l)
    (hw : 0 < acc.wt (i0 : ℤ)) (c : ℕ) (hc : c < 3) :
    ∀ st : St, (l.foldl (normPix acc) st).data (4 * (i0 : ℤ) + c) =
      rdiv (acc.fd (4 * (i0 : ℤ) + c)) (acc.wt (i0 : ℤ)) := by
  induction l with
  | nil => exact absurd hmem (by simp)
  | cons i l ih =>
    intro st
    rw [List.foldl_cons]
    by_cases hil : i0 ∈ l
    · exact ih hil (normPix acc st i)
    · have hii : i = i0 := by
        rcases List.mem_cons.mp hmem with h | h
        · omega
        · exact absurd h hil
      subst hii
      rw [normFold_data_frame acc l (4 * (i : ℤ) + c) ?_]
      · unfold normPix
        simp only [hw, if_true]
        simp only [wr]
        interval_cases c
        · rw [if_neg (by omega), if_neg (by omega), if_neg (by omega),
            if_pos (by omega : 4 * (i : ℤ) + ((0 : ℕ) : ℤ) = 4 * (i : ℤ))]
          norm_num
        · rw [if_neg (by omega), if_neg (by omega),
            if_pos (by omega : 4 * (i : ℤ) + ((1 : ℕ) : ℤ) = 4 * (i : ℤ) + 1)]
          norm_num
        · rw [if_neg (by omega),
            if_pos (by omega : 4 * (i : ℤ) + ((2 : ℕ) : ℤ) = 4 * (i : ℤ) + 2)]
          norm_num
      · intro i2 h2
        intro hcontra
        obtain ⟨hw2, hb1, hb2⟩ := hcontra
        have : i2 = i := by omega
        rw [this] at h2
        exact hil h2

theorem normFold_alpha_hit (acc : Acc) (l : List ℕ) (i0 : ℕ) (hmem : i0 ∈ l)
    (hw : 0 < acc.wt (i0 : ℤ)) :
    ∀ st : St, (l.foldl (normPix acc) st).data (4 * (i0 : ℤ) + 3) = 255 := by
  induction l with
  | nil => exact absurd hmem (by simp)
  | cons i l ih =>
    intro st
    rw [List.foldl_cons]
    by_cases hil : i0 ∈ l
    · exact ih hil (normPix acc st i)
    · have hii : i = i0 := by
        rcases List.mem_cons.mp hmem with h | h
        · omega
        · exact absurd h hil
      subst hii
      rw [normFold_data_frame acc l (4 * (i : ℤ) + 3) ?_]
      · unfold normPix
        simp only [hw, if_true]
        simp only [wr]
        simp
      · intro i2 h2
        intro hcontra
        obtain ⟨hw2, hb1, hb2⟩ := hcontra
        have : i2 = i := by omega
        rw [this] at h2
        exact hil h2

theorem normFold_mask_hit (acc : Acc) (l : List ℕ) (i0 : ℕ) (hmem : i0 ∈ l)
    (hw : 0 < acc.wt (i0 : ℤ)) :
    ∀ st : St, (l.foldl (normPix acc) st).mask (4 * (i0 : ℤ) + 3) = 0 := by
  induction l with
  | nil => exact absurd hmem (by simp)
  | cons i l ih =>
    intro st
    rw [List.foldl_cons]
    by_cases hil : i0 ∈ l
    · exact ih hil (normPix acc st i)
    · have hii : i = i0 := by
        rcases List.mem_cons.mp hmem with h | h
        · omega
        · exact absurd h hil
      subst hii
      rw [normFold_mask_frame acc l (4 * (i : ℤ) + 3) ?_]
      · unfold normPix
        simp only [hw, if_true]
        simp only [wr]
        simp
      · intro i2 h2
        intro hcontra
        obtain ⟨hw2, hb⟩ := hcontra
        have : i2 = i := by omega
        rw [this] at h2
        exact hil h2

theorem rdiv_mul {v n : ℕ} (hn : 0 < n) (hv : v ≤ 255) : rdiv (v * n) n = v := by
  unfold rdiv
  have h1 : v * n / n = v := Nat.mul_div_cancel v hn
  have h2 : v * n % n = 0 := Nat.mul_mod_left v n
  dsimp only
  rw [h1, h2]
  rw [if_pos (by omega)]
  exact min_eq_right hv

theorem exists_coords {w h : ℕ} {i : ℕ} (hi : i < w * h) :
    ∃ x y : ℤ, isValid w h x y = true ∧ pidx w x y = (i : ℤ) := by
  have hw : 0 < w := by
    rcases Nat.eq_zero_or_pos w with h0 | h0
    · rw [h0] at hi
      omega
    · exact h0
  refine ⟨((i % w : ℕ) : ℤ), ((i / w : ℕ) : ℤ), ?_, ?_⟩
  · rw [isValid_iff]
    have hmod : i % w < w := Nat.mod_lt _ hw
    have hdiv : i / w < h := Nat.div_lt_of_lt_mul (by omega)
    refine ⟨by positivity, by exact_mod_cast hmod, by positivity, by exact_mod_cast hdiv⟩
  · unfold pidx
    have hnat := Nat.div_add_mod i w
    rw [Nat.mul_comm] at hnat
    exact_mod_cast hnat

theorem nnf_valid_of_invR {A : Args} {st : St} (hinv : InvR A st) {x y : ℤ}
    (hval : isValid A.width A.height x y = true) :
    isValid A.width A.height (st.nnf (pidx A.width x y)).1
      (st.nnf (pidx A.width x y)).2 = true := by
  by_cases hm : isMasked A.width A.height A.mask x y = true
  · exact ((hinv.2 (x, y) (mem_raster.mpr hval)).2 hm).1
  · have h := ((hinv.2 (x, y) (mem_raster.mpr hval)).1 (eq_false_of_ne_true hm)).1
    rw [h]
    exact hval

theorem finalize_eq (A : Args) (st : St) :
    finalize A st = (List.range (A.width * A.height)).foldl (normPix (reconAcc A st)) st :=
  rfl

theorem pidx_toNat {w h : ℕ} {x y : ℤ} (hval : isValid w h x y = true) :
    ((pidx w x y).toNat : ℤ) = pidx w x y ∧ (pidx w x y).toNat < w * h := by
  obtain ⟨h1, h2⟩ := pidx_bounds hval
  constructor
  · exact Int.toNat_of_nonneg h1
  · omega

theorem mask_alpha_zero {w h : ℕ} {mask : ℤ → ℕ} {x y : ℤ}
    (hval : isValid w h x y = true) (hm : isMasked w h mask x y = false) :
    mask (idx w x y + 3) = 0 := by
  unfold isMasked at hm
  rw [if_pos hval] at hm
  simp only [decide_eq_false_iff_not] at hm
  omega

/-- Claim C10 (amended): with a non-empty valid-pixel list, every pixel of
the image — masked or unmasked before the call — receives a reconstruction
weight of at least 1 (its own patch's centre contributes to it), and
therefore after `inpaint` returns every pixel's output alpha is exactly 255
and every pixel's mask alpha entry is cleared to 0, not only the pixels
that were masked.  (Only the alpha entries of the mask buffer are cleared;
its other channels are untouched, which is what the counterexample forces
the claim to say instead of "every entry of the mask buffer".) -/
theorem C10_theorem (A : Args) (rng : ℕ → ℕ)
    (hne : validPixels A.width A.height A.mask ≠ []) :
    ∃ st3, afterRefine A rng = some st3 ∧ inpaint A rng = some (finalize A st3) ∧
      ∀ x y : ℤ, isValid A.width A.height x y = true →
        1 ≤ (reconAcc A st3).wt (pidx A.width x y) ∧
        (finalize A st3).data (idx A.width x y + 3) = 255 ∧
        (finalize A st3).mask (idx A.width x y + 3) = 0 := by
  obtain ⟨st3, hst3, hinv⟩ := afterRefine_inv A rng hne
  refine ⟨st3, hst3, ?_, ?_⟩
  · unfold inpaint
    rw [if_neg hne, hst3]
    rfl
  · intro x y hval
    have hnnf := nnf_valid_of_invR hinv hval
    have hwt := recon_wt_pos A st3 x y hval hnnf
    obtain ⟨hA, hB⟩ := pidx_toNat (h := A.height) hval
    have hw' : 0 < (reconAcc A st3).wt (((pidx A.width x y).toNat : ℕ) : ℤ) := by
      rw [hA]
      exact hwt
    have hmem : (pidx A.width x y).toNat ∈ List.range (A.width * A.height) := by
      rw [List.mem_range]
      exact hB
    refine ⟨hwt, ?_, ?_⟩
    · rw [finalize_eq, idx_eq, ← hA]
      exact normFold_alpha_hit (reconAcc A st3) (List.range (A.width * A.height))
        _ hmem hw' st3
    · rw [finalize_eq, idx_eq, ← hA]
      exact normFold_mask_hit (reconAcc A st3) (List.range (A.width * A.height))
        _ hmem hw' st3

theorem C10_witness :
    ∃ st3, afterRefine ex10 rngZero = some st3 ∧
      inpaint ex10 rngZero = some (finalize ex10 st3) ∧
      ∀ x y : ℤ, isValid ex10.width ex10.height x y = true →
        1 ≤ (reconAcc ex10 st3).wt (pidx ex10.width x y) ∧
        (finalize ex10 st3).data (idx ex10.width x y + 3) = 255 ∧
        (finalize ex10 st3).mask (idx ex10.width x y + 3) = 0 :=
  C10_theorem ex10 rngZero (by decide)

/-- Claim C10, counterexample to the claim as stated: a run with a
non-empty valid-pixel set after which an entry of the mask buffer (the red
channel of the single pixel's mask entry) is 5, not 0 — only the alpha
entries of the mask are cleared. -/
theorem C10_counterexample :
    validPixels ex10.width ex10.height ex10.mask ≠ [] ∧
    ((inpaint ex10 rngZero).map fun st => st.mask 0) = some 5 ∧ (5 : ℕ) ≠ 0 :=
  ⟨by decide, by decide, by decide⟩

/-- Claim C4 (amended): calling `inpaint` with an all-zero mask returns the
image with every pixel's RGB bytes unchanged and every pixel's alpha forced
to 255 by the reconstruction's normalisation; the mask buffer is returned
byte-for-byte unchanged.  (The image is therefore byte-for-byte unchanged
exactly when every input alpha was already 255 — the counterexample shows
the alpha channel is not preserved in general.) -/
theorem C4_theorem (A : Args) (rng : ℕ → ℕ)
    (hall : ∀ p ∈ raster A.width A.height,
      isMasked A.width A.height A.mask p.1 p.2 = false) :
    ∃ st, inpaint A rng = some st ∧
      (∀ x y : ℤ, isValid A.width A.height x y = true →
        (∀ c : ℕ, c < 3 → A.data (idx A.width x y + c) ≤ 255 →
          st.data (idx A.width x y + c) = A.data (idx A.width x y + c)) ∧
        st.data (idx A.width x y + 3) = 255) ∧
      (∀ j : ℤ, st.mask j = A.mask j) := by
  by_cases hne : validPixels A.width A.height A.mask = []
  · refine ⟨st0 A, by unfold inpaint; rw [if_pos hne], ?_, fun j => rfl⟩
    intro x y hval
    exfalso
    have hmem : ((x, y) : ℤ × ℤ) ∈ validPixels A.width A.height A.mask := by
      apply mem_validPixels.mpr
      exact ⟨mem_raster.mpr hval, hall (x, y) (mem_raster.mpr hval)⟩
    rw [hne] at hmem
    exact absurd hmem (by simp)
  · obtain ⟨st3, hst3, hinv⟩ := afterRefine_inv A rng hne
    have hout : inpaint A rng = some (finalize A st3) := by
      unfold inpaint
      rw [if_neg hne, hst3]
      rfl
    refine ⟨finalize A st3, hout, ?_, ?_⟩
    · intro x y hval
      have hunm : isMasked A.width A.height A.mask x y = false :=
        hall (x, y) (mem_raster.mpr hval)
      obtain ⟨hid, hdist0, hdata⟩ := (hinv.2 (x, y) (mem_raster.mpr hval)).1 hunm
      have hnnf := nnf_valid_of_invR hinv hval
      have hwt := recon_wt_pos A st3 x y hval hnnf
      obtain ⟨hA, hB⟩ := pidx_toNat (h := A.height) hval
      have hw' : 0 < (reconAcc A st3).wt (((pidx A.width x y).toNat : ℕ) : ℤ) := by
        rw [hA]
        exact hwt
      have hmem : (pidx A.width x y).toNat ∈ List.range (A.width * A.height) := by
        rw [List.mem_range]
        exact hB
      constructor
      · intro c hc hb
        have hv : ∀ q ∈ raster A.width A.height, ∀ o ∈ offsets (halfPatch A),
            q.1 + o.1 = x → q.2 + o.2 = y →
            isValid A.width A.height ((st3.nnf (pidx A.width q.1 q.2)).1 + o.1)
              ((st3.nnf (pidx A.width q.1 q.2)).2 + o.2) = true →
            st3.data (idx A.width ((st3.nnf (pidx A.width q.1 q.2)).1 + o.1)
              ((st3.nnf (pidx A.width q.1 q.2)).2 + o.2) + c) =
            A.data (idx A.width x y + c) := by
          intro q hqr o hor hqx hqy hsv
          have hqunm : isMasked A.width A.height A.mask q.1 q.2 = false := hall q hqr
          obtain ⟨hqid, _, _⟩ := (hinv.2 q hqr).1 hqunm
          rw [hqid]
          have hx : q.1 + o.1 = x := hqx
          have hy : q.2 + o.2 = y := hqy
          rw [hx, hy]
          exact hdata c (by omega)
        have hfd := recon_const_at A st3 x y c hc (A.data (idx A.width x y + c)) hval ?_
        · rw [finalize_eq, idx_eq, ← hA]
          rw [normFold_data_hit (reconAcc A st3) (List.range (A.width * A.height))
            _ hmem hw' c hc st3]
          rw [hA, ← idx_eq, hfd]
          exact rdiv_mul hwt hb
        · intro q hqr o hor hqx hqy hsv
          exact hv q hqr o hor hqx hqy hsv
      · rw [finalize_eq, idx_eq, ← hA]
        exact normFold_alpha_hit (reconAcc A st3) (List.range (A.width * A.height))
          _ hmem hw' st3
    · intro j
      have hmask3 : st3.mask = A.mask := hinv.1
      by_cases hhit : ∃ i, i ∈ List.range (A.width * A.height) ∧
          0 < (reconAcc A st3).wt ((i : ℕ) : ℤ) ∧ j = 4 * ((i : ℕ) : ℤ) + 3
      · obtain ⟨i, hi, hwti, hj⟩ := hhit
        subst hj
        rw [finalize_eq]
        rw [normFold_mask_hit (reconAcc A st3) (List.range (A.width * A.height))
          i hi hwti st3]
        obtain ⟨x0, y0, hval0, hp0⟩ := exists_coords (List.mem_range.mp hi)
        have : A.mask (4 * ((i : ℕ) : ℤ) + 3) = 0 := by
          rw [← hp0, ← idx_eq]
          exact mask_alpha_zero hval0 (hall (x0, y0) (mem_raster.mpr hval0))
        rw [this]
      · rw [finalize_eq]
        rw [normFold_mask_frame (reconAcc A st3) (List.range (A.width * A.height)) j ?_]
        · rw [hmask3]
        · intro i hi hcontra
          exact hhit ⟨i, hi, hcontra.1, hcontra.2⟩

theorem C4_witness :
    ∃ st, inpaint ex4 rngZero = some st ∧
      (∀ x y : ℤ, isValid ex4.width ex4.height x y = true →
        (∀ c : ℕ, c < 3 → ex4.data (idx ex4.width x y + c) ≤ 255 →
          st.data (idx ex4.width x y + c) = ex4.data (idx ex4.width x y + c)) ∧
        st.data (idx ex4.width x y + 3) = 255) ∧
      (∀ j : ℤ, st.mask j = ex4.mask j) :=
  C4_theorem ex4 rngZero (by decide)

/-- Claim C4, counterexample to the claim as stated: a 1-by-1 image whose
only pixel has alpha 7 and an all-zero mask; `inpaint` returns it with
alpha 255, so the image is not byte-for-byte unchanged. -/
theorem C4_counterexample :
    (∀ p ∈ raster ex4.width ex4.height,
      isMasked ex4.width ex4.height ex4.mask p.1 p.2 = false) ∧
    ex4.data 3 = 7 ∧
    ((inpaint ex4 rngZero).map fun st => st.data 3) = some 255 :=
  ⟨by decide, by decide, by decide⟩

/-- Claim C1 (amended): with a non-empty valid-pixel set, every pixel that
is unmasked before the call and whose whole `(2*halfPatch+1)`-square
neighbourhood contains no masked pixel has its output RGB equal to its
input RGB exactly (for input bytes in range).  The counterexample shows the
restriction to pixels away from the hole is necessary: the reconstruction
averages overlapping patches into unmasked pixels within `halfPatch` of a
masked pixel and can change their RGB. -/
theorem C1_theorem (A : Args) (rng : ℕ → ℕ)
    (hne : validPixels A.width A.height A.mask ≠ [])
    (x y : ℤ) (hval : isValid A.width A.height x y = true)
    (hball : ∀ q ∈ raster A.width A.height,
      x - halfPatch A ≤ q.1 → q.1 ≤ x + halfPatch A →
      y - halfPatch A ≤ q.2 → q.2 ≤ y + halfPatch A →
      isMasked A.width A.height A.mask q.1 q.2 = false)
    (c : ℕ) (hc : c < 3) (hb : A.data (idx A.width x y + c) ≤ 255) :
    ((inpaint A rng).map fun st => st.data (idx A.width x y + c)) =
      some (A.data (idx A.width x y + c)) := by
  obtain ⟨st3, hst3, hinv⟩ := afterRefine_inv A rng hne
  have hout : inpaint A rng = some (finalize A st3) := by
    unfold inpaint
    rw [if_neg hne, hst3]
    rfl
  rw [hout]
  have hunm : isMasked A.width A.height A.mask x y = false :=
    hball (x, y) (mem_raster.mpr hval) (by omega) (by omega) (by omega) (by omega)
  obtain ⟨hid, hdist0, hdata⟩ := (hinv.2 (x, y) (mem_raster.mpr hval)).1 hunm
  have hnnf := nnf_valid_of_invR hinv hval
  have hwt := recon_wt_pos A st3 x y hval hnnf
  obtain ⟨hA, hB⟩ := pidx_toNat (h := A.height) hval
  have hw' : 0 < (reconAcc A st3).wt (((pidx A.width x y).toNat : ℕ) : ℤ) := by
    rw [hA]
    exact hwt
  have hmem : (pidx A.width x y).toNat ∈ List.range (A.width * A.height) := by
    rw [List.mem_range]
    exact hB
  have hv : ∀ q ∈ raster A.width A.height, ∀ o ∈ offsets (halfPatch A),
      q.1 + o.1 = x → q.2 + o.2 = y →
      isValid A.width A.height ((st3.nnf (pidx A.width q.1 q.2)).1 + o.1)
        ((st3.nnf (pidx A.width q.1 q.2)).2 + o.2) = true →
      st3.data (idx A.width ((st3.nnf (pidx A.width q.1 q.2)).1 + o.1)
        ((st3.nnf (pidx A.width q.1 q.2)).2 + o.2) + c) =
      A.data (idx A.width x y + c) := by
    intro q hqr o hor hqx hqy hsv
    obtain ⟨ho1, ho2, ho3, ho4⟩ := mem_offsets.mp hor
    have hqunm : isMasked A.width A.height A.mask q.1 q.2 = false :=
      hball q hqr (by omega) (by omega) (by omega) (by omega)
    obtain ⟨hqid, _, _⟩ := (hinv.2 q hqr).1 hqunm
    rw [hqid]
    have hx : q.1 + o.1 = x := hqx
    have hy : q.2 + o.2 = y := hqy
    rw [hx, hy]
    exact hdata c (by omega)
  have hfd := recon_const_at A st3 x y c hc (A.data (idx A.width x y + c)) hval hv
  simp only [Option.map_some']
  congr 1
  rw [finalize_eq, idx_eq, ← hA]
  rw [normFold_data_hit (reconAcc A st3) (List.range (A.width * A.height))
    _ hmem hw' c hc st3]
  rw [hA, ← idx_eq, hfd]
  exact rdiv_mul hwt hb

theorem C1_witness :
    ((inpaint ex1 rngOne).map fun st => st.data (idx ex1.width 0 0 + 0)) =
      some (ex1.data (idx ex1.width 0 0 + 0)) :=
  C1_theorem ex1 rngOne (by decide) 0 0 (by decide) (by decide) 0 (by decide) (by decide)

/-- Claim C1, counterexample to the claim as stated: in the 3-by-1 input
`ex1` the pixel (1,0) is unmasked with red byte 3, yet the reconstruction
averages the masked neighbour's patch into it and `inpaint` returns red
byte 2 there. -/
theorem C1_counterexample :
    isMasked ex1.width ex1.height ex1.mask 1 0 = false ∧
    ex1.data (idx ex1.width 1 0) = 3 ∧
    ((inpaint ex1 rngOne).map fun st => st.data (idx ex1.width 1 0)) = some 2 :=
  ⟨by decide, by decide, by decide⟩

theorem dataPat_write4 {A : Args} {st : St} (hpat : DataPat A st)
    {px py : ℤ} (hpv : isValid A.width A.height px py = true)
    {r g b : ℕ} (hr : r = chan 0) (hg : g = chan 1) (hb : b = chan 2) :
    ∀ x y : ℤ, isValid A.width A.height x y = true → ∀ c : ℕ, c < 4 →
      (wr (wr (wr (wr st.data (idx A.width px py) r)
        (idx A.width px py + 1) g) (idx A.width px py + 2) b)
        (idx A.width px py + 3) 255) (idx A.width x y + c) = chan c := by
  intro x y hxv c hc
  have h1 := pidx_bounds hpv
  have h2 := pidx_bounds hxv
  have hst := hpat x y hxv c hc
  simp only [wr, idx_eq] at hst ⊢
  split_ifs with e1 e2 e3 e4
  · have : c = 3 := by omega
    subst this
    rfl
  · have : c = 2 := by omega
    subst this
    rw [hb]
  · have : c = 1 := by omega
    subst this
    rw [hg]
  · have : c = 0 := by omega
    subst this
    rw [hr]
  · exact hst

theorem dataPat_write3 {A : Args} {st : St} (hpat : DataPat A st)
    {px py : ℤ} (hpv : isValid A.width A.height px py = true)
    {r g b : ℕ} (hr : r = chan 0) (hg : g = chan 1) (hb : b = chan 2) :
    ∀ x y : ℤ, isValid A.width A.height x y = true → ∀ c : ℕ, c < 4 →
      (wr (wr (wr st.data (idx A.width px py) r)
        (idx A.width px py + 1) g) (idx A.width px py + 2) b)
        (idx A.width x y + c) = chan c := by
  intro x y hxv c hc
  have h1 := pidx_bounds hpv
  have h2 := pidx_bounds hxv
  have hst := hpat x y hxv c hc
  simp only [wr, idx_eq] at hst ⊢
  split_ifs with e1 e2 e3
  · have : c = 2 := by omega
    subst this
    rw [hb]
  · have : c = 1 := by omega
    subst this
    rw [hg]
  · have : c = 0 := by omega
    subst this
    rw [hr]
  · exact hst

theorem initPix_pat (A : Args) (rng : ℕ → ℕ)
    (hne : validPixels A.width A.height A.mask ≠ []) :
    ∀ (st : St) (p : ℤ × ℤ), p ∈ raster A.width A.height →
      (st.mask = A.mask ∧ DataPat A st) →
      ∃ st', initPix A (validPixels A.width A.height A.mask) rng st p = some st' ∧
        (st'.mask = A.mask ∧ DataPat A st') := by
  intro st p hpr hP
  obtain ⟨hmask, hpat⟩ := hP
  by_cases hm : isMasked A.width A.height st.mask p.1 p.2 = true
  · obtain ⟨src, hsrcmem, hstep⟩ :=
      initPix_masked rng hm hne (fun q hq => (mem_validPixels.mp hq).1)
    refine ⟨_, hstep, hmask, ?_⟩
    have hsv : isValid A.width A.height src.1 src.2 = true :=
      mem_raster.mp (mem_validPixels.mp hsrcmem).1
    have hpv : isValid A.width A.height p.1 p.2 = true := isMasked_valid hm
    intro x y hxv c hc
    dsimp only
    apply dataPat_write4 hpat hpv ?_ ?_ ?_ x y hxv c hc
    · simpa using hpat src.1 src.2 hsv 0 (by omega)
    · simpa using hpat src.1 src.2 hsv 1 (by omega)
    · simpa using hpat src.1 src.2 hsv 2 (by omega)
  · rw [initPix_unmasked (validPixels A.width A.height A.mask) rng (eq_false_of_ne_true hm)]
    exact ⟨_, rfl, hmask, hpat⟩

theorem visitPix_pat (A : Args) (rng : ℕ → ℕ) :
    ∀ (st : St) (v : Bool × (ℤ × ℤ)), (InvR A st ∧ DataPat A st) →
      ∃ st', visitPix A rng st v = some st' ∧ (InvR A st' ∧ DataPat A st') := by
  intro st v hP
  obtain ⟨hinv, hpat⟩ := hP
  obtain ⟨st', hstep, hinv'⟩ := visitPix_inv A rng st v hinv
  refine ⟨st', hstep, hinv', ?_⟩
  rcases v with ⟨rev, x, y⟩
  by_cases hm : isMasked A.width A.height st.mask x y = true
  · have hmA : isMasked A.width A.height A.mask x y = true := by
      rwa [hinv.1] at hm
    have hxyv : isValid A.width A.height x y = true := isMasked_valid hmA
    have hb0 : isValid A.width A.height (st.nnf (pidx A.width x y)).1
        (st.nnf (pidx A.width x y)).2 = true :=
      ((hinv.2 (x, y) (mem_raster.mpr hxyv)).2 hmA).1
    obtain ⟨best, rc', hbv, hbd, hstep2⟩ :=
      visitPix_masked rng rev hm hb0
    rw [hstep] at hstep2
    have hst' := Option.some.inj hstep2
    rw [hst']
    intro x2 y2 hv2 c hc
    dsimp only
    apply dataPat_write3 hpat hxyv ?_ ?_ ?_ x2 y2 hv2 c hc
    · simpa using hpat best.1.1 best.1.2 hbv 0 (by omega)
    · simpa using hpat best.1.1 best.1.2 hbv 1 (by omega)
    · simpa using hpat best.1.1 best.1.2 hbv 2 (by omega)
  · have heq := visitPix_unmasked (A := A) rng rev (eq_false_of_ne_true hm)
    rw [hstep] at heq
    rw [Option.some.inj heq]
    exact hpat

theorem inpaint_const (A : Args) (rng : ℕ → ℕ)
    (hne : validPixels A.width A.height A.mask ≠ []) (hconst : ConstImg A) :
    ∃ st, inpaint A rng = some st ∧
      ∀ x y : ℤ, isValid A.width A.height x y = true → ∀ c : ℕ, c < 4 →
        st.data (idx A.width x y + c) = chan c := by
  have hpat0 : DataPat A (st0 A) := fun x y hv c hc => hconst x y hv c hc
  obtain ⟨st1, hfold1, hP1⟩ :=
    foldlM_some_ind (initPix A (validPixels A.width A.height A.mask) rng)
      (fun st => st.mask = A.mask ∧ DataPat A st) (raster A.width A.height)
      (fun s p hp hs => initPix_pat A rng hne s p hp hs) (st0 A) ⟨rfl, hpat0⟩
  have hai : afterInit A rng = some st1 := hfold1
  obtain ⟨st1', hai', hpost', hinv1'⟩ := afterInit_inv A rng hne
  have he1 : st1' = st1 := by
    rw [hai] at hai'
    exact (Option.some.inj hai').symm
  rw [he1] at hinv1'
  obtain ⟨hinv2, hdd, hdn, hdm⟩ := distPass_inv A st1 hinv1'
  have hpat2 : DataPat A (distPass A st1) := by
    intro x y hv c hc
    rw [hdd]
    exact hP1.2 x y hv c hc
  obtain ⟨st3, hfold3, hP3⟩ :=
    foldlM_some_ind (visitPix A rng) (fun st => InvR A st ∧ DataPat A st)
      (visitSeq A.width A.height A.iterations)
      (fun s v _ hs => visitPix_pat A rng s v hs) (distPass A st1) ⟨hinv2, hpat2⟩
  have har : afterRefine A rng = some st3 := by
    unfold afterRefine
    rw [hai]
    simpa [refineFold] using hfold3
  have hout : inpaint A rng = some (finalize A st3) := by
    unfold inpaint
    rw [if_neg hne, har]
    rfl
  obtain ⟨hinv3, hpat3⟩ := hP3
  refine ⟨finalize A st3, hout, ?_⟩
  intro x y hval c hc
  have hnnf := nnf_valid_of_invR hinv3 hval
  have hwt := recon_wt_pos A st3 x y hval hnnf
  obtain ⟨hA, hB⟩ := pidx_toNat (h := A.height) hval
  have hw' : 0 < (reconAcc A st3).wt (((pidx A.width x y).toNat : ℕ) : ℤ) := by
    rw [hA]
    exact hwt
  have hmem : (pidx A.width x y).toNat ∈ List.range (A.width * A.height) := by
    rw [List.mem_range]
    exact hB
  by_cases hc3 : c < 3
  · have hv : ∀ q ∈ raster A.width A.height, ∀ o ∈ offsets (halfPatch A),
        q.1 + o.1 = x → q.2 + o.2 = y →
        isValid A.width A.height ((st3.nnf (pidx A.width q.1 q.2)).1 + o.1)
          ((st3.nnf (pidx A.width q.1 q.2)).2 + o.2) = true →
        st3.data (idx A.width ((st3.nnf (pidx A.width q.1 q.2)).1 + o.1)
          ((st3.nnf (pidx A.width q.1 q.2)).2 + o.2) + c) = chan c := by
      intro q hqr o hor hqx hqy hsv
      exact hpat3 _ _ hsv c hc
    have hfd := recon_const_at A st3 x y c hc3 (chan c) hval hv
    rw [finalize_eq, idx_eq, ← hA]
    rw [normFold_data_hit (reconAcc A st3) (List.range (A.width * A.height))
      _ hmem hw' c hc3 st3]
    rw [hA, ← idx_eq, hfd]
    exact rdiv_mul hwt (by unfold chan; split_ifs <;> omega)
  · have hc4 : c = 3 := by omega
    subst hc4
    rw [finalize_eq, idx_eq, ← hA]
    rw [show ((3 : ℕ) : ℤ) = (3 : ℤ) from rfl]
    rw [normFold_alpha_hit (reconAcc A st3) (List.range (A.width * A.height))
      _ hmem hw' st3]
    rfl

theorem ex8_const : ConstImg ex8 := by
  intro x y hval c hc
  have h1 := (pidx_bounds hval).1
  have hmod : (idx ex8.width x y + (c : ℤ)) % 4 = (c : ℤ) := by
    rw [idx_eq]
    omega
  show (if (idx ex8.width x y + (c : ℤ)) % 4 = 0 ∨ (idx ex8.width x y + (c : ℤ)) % 4 = 3
    then (255 : ℕ) else 0) = chan c
  rw [hmod]
  unfold chan
  interval_cases c <;> norm_num

/-- Claim C8: for the 5-by-5 solid red (255,0,0,255) image with the single
pixel (2,2) masked, patch size 3 and one iteration, and for every random
sequence, `inpaint` succeeds and every pixel and channel of the output
equals the input — in particular the output pixel at (2,2) is exactly
(255,0,0,255) and every other pixel is unchanged. -/
theorem C8_theorem (rng : ℕ → ℕ) :
    ∃ st, inpaint ex8 rng = some st ∧
      ∀ x y : ℤ, isValid ex8.width ex8.height x y = true → ∀ c : ℕ, c < 4 →
        st.data (idx ex8.width x y + c) = ex8.data (idx ex8.width x y + c) := by
  obtain ⟨st, hst, hpat⟩ := inpaint_const ex8 rng (by decide) ex8_const
  refine ⟨st, hst, ?_⟩
  intro x y hv c hc
  rw [hpat x y hv c hc, ex8_const x y hv c hc]

theorem C8_witness :
    ∃ st, inpaint ex8 rngZero = some st ∧
      ∀ x y : ℤ, isValid ex8.width ex8.height x y = true → ∀ c : ℕ, c < 4 →
        st.data (idx ex8.width x y + c) = ex8.data (idx ex8.width x y + c) :=
  C8_theorem rngZero

end Web
